import Mathlib

set_option maxHeartbeats 1000000

/-!
A verification development for the ngs-json-utils toolkit
(`projects/ngs-json-utils/src/lib/ngs-json-utils.service.ts`).

The JSON value domain is embedded as the inductive type `JVal`.  The
service methods under study are translated one by one; the JavaScript
runtime facilities they lean on (`JSON.stringify`, `JSON.parse`, property
access, spread, `Object.keys` / `Object.entries`) are modelled explicitly:

* `serChars` models compact `JSON.stringify` output (ECMA-262
  QuoteJSONString escaping, insertion-ordered members, integral numbers);
* `readVal` models `JSON.parse` on such texts: a fuel-indexed
  recursive-descent reader in which a duplicate object key overwrites the
  earlier value in place, exactly as repeated property assignment does;
* `getProp` models own-property access `v[k]` (object fields, array
  indices in canonical decimal form, the array/string `length` property,
  string indices);
* `spreadEntries` models `{...v}`, and `keyEntries` models iterating
  `Object.keys(v)` together with `v[key]`.

Numbers are embedded as `Int`: every value the specification exercises is
integral, and float representation questions are outside the claims.
Values are trees, so distinct compound subterms model distinct references
(which is what literals and `JSON.parse` produce); reference equality
`===` is therefore modelled as `primEq`, equality on primitives only.
-/

namespace NgsJson

/-- The JSON value domain: null, booleans, numbers (integral), strings,
arrays, and insertion-ordered string-keyed mappings. -/
inductive JVal where
  | null
  | bool (b : Bool)
  | num (n : Int)
  | str (s : String)
  | arr (items : List JVal)
  | obj (fields : List (String × JVal))

mutual

/-- Mutually recursive propositional equality test (the derived handler does
not support this nested inductive). -/
def beqV : JVal → JVal → Bool
  | .null, .null => true
  | .bool x, .bool y => x == y
  | .num x, .num y => x == y
  | .str x, .str y => x == y
  | .arr xs, .arr ys => beqVItems xs ys
  | .obj xs, .obj ys => beqVFields xs ys
  | _, _ => false
termination_by structural a => a

/-- Equality test on element lists. -/
def beqVItems : List JVal → List JVal → Bool
  | [], [] => true
  | x :: xs, y :: ys => beqV x y && beqVItems xs ys
  | _, _ => false
termination_by structural l => l

/-- Equality test on field lists. -/
def beqVFields : List (String × JVal) → List (String × JVal) → Bool
  | [], [] => true
  | (k, x) :: xs, (l, y) :: ys => k == l && beqV x y && beqVFields xs ys
  | _, _ => false
termination_by structural l => l

end

/-- The opening brace character, `\x7b`. -/
def obrace : Char := Char.ofNat 123

/-- The closing brace character, `\x7d`. -/
def cbrace : Char := Char.ofNat 125

/-- First-hit association lookup, the value stored under a plain-object key. -/
def lookupStr : List (String × JVal) → String → Option JVal
  | [], _ => none
  | (k, v) :: rest, key => if k = key then some v else lookupStr rest key

/-- Left-biased choice on optional values. -/
def orO : Option JVal → Option JVal → Option JVal
  | some x, _ => some x
  | none, b => b

/-- Property assignment on a plain object: an existing key keeps its position
and receives the new value, a fresh key is appended. -/
def setField : List (String × JVal) → String → JVal → List (String × JVal)
  | [], key, v => [(key, v)]
  | (k, w) :: rest, key, v =>
    if k = key then (key, v) :: rest else (k, w) :: setField rest key v

/-- Assign every entry of the second list into the first, in order; this is
`Object.assign(acc, src)` on entry lists. -/
def assignAll (acc : List (String × JVal)) (src : List (String × JVal)) : List (String × JVal) :=
  src.foldl (fun a p => setField a p.1 p.2) acc

/-- Build a plain object by assigning the entries in order into an empty
object: a duplicated key ends with its last value at its first position. -/
def buildObj (src : List (String × JVal)) : List (String × JVal) := assignAll [] src

/-- The decimal digit character for `n < 10`. -/
def digitChar (n : Nat) : Char := Char.ofNat (48 + n)

/-- Fueled digit extraction (the division recursion is not structural; any
fuel above the digit count gives the digits, most significant first). -/
def natCharsF : Nat → Nat → List Char
  | 0, _ => []
  | fuel + 1, n =>
    if n < 10 then [digitChar n] else natCharsF fuel (n / 10) ++ [digitChar (n % 10)]

/-- Canonical decimal digits of a natural number, most significant first. -/
def natChars (n : Nat) : List Char := natCharsF (n + 1) n

/-- Signed decimal digits of an integer, as `JSON.stringify` renders it. -/
def intChars (i : Int) : List Char :=
  if i < 0 then '-' :: natChars i.natAbs else natChars i.natAbs

/-- The canonical decimal property name of index `n` (JS coerces array indices
through this canonical form). -/
def natStr (n : Nat) : String := ⟨natChars n⟩

/-- Decimal digit test on a character code. -/
def isDig (c : Char) : Bool := 48 ≤ c.toNat && c.toNat ≤ 57

/-- Split a leading run of decimal digits off a character list. -/
def grabDigits : List Char → List Char × List Char
  | [] => ([], [])
  | c :: cs => if isDig c then let p := grabDigits cs; (c :: p.1, p.2) else ([], c :: cs)

/-- Numeric value of a digit run. -/
def digitsNat (ds : List Char) : Nat := ds.foldl (fun a c => a * 10 + (c.toNat - 48)) 0

/-- A remainder that cannot extend a digit run: empty or headed by a
non-digit.  In a serialization the character after a number is always a
separator or a closer, so this holds wherever a number ends. -/
def stopsNum : List Char → Bool
  | [] => true
  | c :: _ => !isDig c

/-- A property name denotes an array index exactly when it is the canonical
decimal form of that index. -/
def decodeIndex (key : String) : Option Nat :=
  match key.data with
  | [] => none
  | cs => if natChars (digitsNat cs) = cs then some (digitsNat cs) else none

/-- Index-keyed entries of an array's elements, starting at index `i`. -/
def enumIdx (i : Nat) : List JVal → List (String × JVal)
  | [] => []
  | x :: xs => (natStr i, x) :: enumIdx (i + 1) xs

/-- Index-keyed entries of a string's characters, each a one-character string,
starting at index `i`. -/
def enumStrIdx (i : Nat) : List Char → List (String × JVal)
  | [] => []
  | c :: cs => (natStr i, .str ⟨[c]⟩) :: enumStrIdx (i + 1) cs

/-- The guard `typeof v === 'object' && v !== null`; arrays satisfy it. -/
def isObjLike : JVal → Bool
  | .obj _ => true
  | .arr _ => true
  | _ => false

/-- JavaScript truthiness of a JSON value. -/
def truthy : JVal → Bool
  | .null => false
  | .bool b => b
  | .num n => !(n == 0)
  | .str s => !(s == "")
  | _ => true

/-- Strict equality `===`.  Compound values compare by reference, and the tree
embedding gives every compound occurrence a fresh reference (as literals and
`JSON.parse` results do), so `===` holds only between equal primitives. -/
def primEq : JVal → JVal → Bool
  | .null, .null => true
  | .bool x, .bool y => x == y
  | .num x, .num y => x == y
  | .str x, .str y => x == y
  | _, _ => false

/-- Strict equality lifted to possibly-undefined values
(`undefined === undefined` is true). -/
def primEqO : Option JVal → Option JVal → Bool
  | none, none => true
  | some a, some b => primEq a b
  | _, _ => false

/-- Own-property read `v[key]`: object fields; array elements under canonical
index names and the array `length`; string characters and `length`.  Inherited
prototype members are outside the JSON domain and not modelled. -/
def getProp : JVal → String → Option JVal
  | .obj fs, key => lookupStr fs key
  | .arr xs, key =>
    if key = "length" then some (.num xs.length)
    else
      match decodeIndex key with
      | some i => xs.get? i
      | none => none
  | .str s, key =>
    if key = "length" then some (.num s.length)
    else
      match decodeIndex key with
      | some i => (s.data.get? i).map (fun c => .str ⟨[c]⟩)
      | none => none
  | _, _ => none

/-- `v[key]` where a presence guard has already been checked; defaults to null. -/
def getPropD (v : JVal) (key : String) : JVal := (getProp v key).getD .null

/-- The own enumerable string-keyed entries of a value: what `Object.keys v`
paired with `v[key]` iterates, and what `{...v}` copies.  Objects contribute
their fields, arrays their indexed elements, strings their indexed characters;
primitives contribute nothing. -/
def ownEntries : JVal → List (String × JVal)
  | .obj fs => fs
  | .arr xs => enumIdx 0 xs
  | .str s => enumStrIdx 0 s.data
  | _ => []

/-- Number of own enumerable keys, `Object.keys(v).length`. -/
def ownLen : JVal → Nat
  | .obj fs => fs.length
  | .arr xs => xs.length
  | _ => 0

/-- The own enumerable key list, `Object.keys v`. -/
def ownKeys : JVal → List String
  | .obj fs => fs.map Prod.fst
  | .arr xs => (enumIdx 0 xs).map Prod.fst
  | _ => []

/-! ### The codec: `JSON.stringify` and `JSON.parse` on the embedded domain -/

/-- The lower-case hexadecimal digit character for `n < 16`. -/
def hexDig (n : Nat) : Char := if n < 10 then digitChar n else Char.ofNat (87 + n)

/-- ECMA-262 QuoteJSONString escaping of one character: quote and backslash
get two-character escapes, the named control characters get theirs, any other
control character becomes a four-digit unicode escape, everything else is
emitted verbatim. -/
def escChar (c : Char) : List Char :=
  if c = '\"' then ['\\', '\"']
  else if c = '\\' then ['\\', '\\']
  else if c = Char.ofNat 8 then ['\\', 'b']
  else if c = '\t' then ['\\', 't']
  else if c = '\n' then ['\\', 'n']
  else if c = Char.ofNat 12 then ['\\', 'f']
  else if c = '\r' then ['\\', 'r']
  else if c.toNat < 32 then ['\\', 'u', '0', '0', hexDig (c.toNat / 16), hexDig (c.toNat % 16)]
  else [c]

/-- Escape a whole character sequence. -/
def escList : List Char → List Char
  | [] => []
  | c :: cs => escChar c ++ escList cs

mutual

/-- Compact `JSON.stringify` output of a value (no spacing, members in
insertion order, integers in decimal). -/
def serChars : JVal → List Char
  | .null => ['n', 'u', 'l', 'l']
  | .bool b => if b then ['t', 'r', 'u', 'e'] else ['f', 'a', 'l', 's', 'e']
  | .num i => intChars i
  | .str s => '\"' :: (escList s.data ++ ['\"'])
  | .arr xs => '[' :: (serItems xs ++ [']'])
  | .obj fs => obrace :: (serFields fs ++ [cbrace])
termination_by structural v => v

/-- Comma-separated renderings of array elements. -/
def serItems : List JVal → List Char
  | [] => []
  | [x] => serChars x
  | x :: xs => serChars x ++ ',' :: serItems xs
termination_by structural l => l

/-- Comma-separated renderings of object members. -/
def serFields : List (String × JVal) → List Char
  | [] => []
  | [(k, v)] => '\"' :: (escList k.data ++ '\"' :: ':' :: serChars v)
  | (k, v) :: fs => ('\"' :: (escList k.data ++ '\"' :: ':' :: serChars v)) ++ ',' :: serFields fs
termination_by structural l => l

end

/-- Value of a hexadecimal digit character, either case. -/
def unhex (c : Char) : Option Nat :=
  if 48 ≤ c.toNat && c.toNat ≤ 57 then some (c.toNat - 48)
  else if 97 ≤ c.toNat && c.toNat ≤ 102 then some (c.toNat - 87)
  else if 65 ≤ c.toNat && c.toNat ≤ 70 then some (c.toNat - 55)
  else none

/-- Decode a one-character escape. -/
def unescChar : Char → Option Char
  | '\"' => some '\"'
  | '\\' => some '\\'
  | '/' => some '/'
  | 'b' => some (Char.ofNat 8)
  | 'f' => some (Char.ofNat 12)
  | 'n' => some '\n'
  | 'r' => some '\r'
  | 't' => some '\t'
  | _ => none

/-- Read a string body after its opening quote, undoing the escapes, up to the
closing quote; raw control characters are rejected as JSON requires. -/
def readStr : List Char → Option (List Char × List Char)
  | [] => none
  | c :: rest =>
    if c = '\"' then some ([], rest)
    else if c = '\\' then
      match rest with
      | 'u' :: h3 :: h2 :: h1 :: h0 :: r =>
        match unhex h3, unhex h2, unhex h1, unhex h0 with
        | some w3, some w2, some w1, some w0 =>
          match readStr r with
          | some (l, r2) => some (Char.ofNat (((w3 * 16 + w2) * 16 + w1) * 16 + w0) :: l, r2)
          | none => none
        | _, _, _, _ => none
      | e :: r =>
        match unescChar e with
        | some ch =>
          match readStr r with
          | some (l, r2) => some (ch :: l, r2)
          | none => none
        | none => none
      | [] => none
    else if c.toNat < 32 then none
    else
      match readStr rest with
      | some (l, r2) => some (c :: l, r2)
      | none => none
termination_by structural cs => cs

mutual

/-- Fuel-indexed recursive-descent model of `JSON.parse` on one value.  The
texts this development feeds it (stringify output and splices of it) carry no
whitespace, so none is skipped; fractional and exponent number forms never
occur in them and are likewise not read. -/
def readVal : Nat → List Char → Option (JVal × List Char)
  | 0, _ => none
  | fuel + 1, cs =>
    match cs with
    | [] => none
    | c :: rest =>
      if isDig c then
        let p := grabDigits (c :: rest)
        some (.num (Int.ofNat (digitsNat p.1)), p.2)
      else if c = '-' then
        match rest with
        | d :: _ =>
          if isDig d then
            let p := grabDigits rest
            some (.num (-(Int.ofNat (digitsNat p.1))), p.2)
          else none
        | [] => none
      else if c = '\"' then
        match readStr rest with
        | some (sl, r) => some (.str ⟨sl⟩, r)
        | none => none
      else if c = '[' then
        match rest with
        | [] => none
        | d :: r2 =>
          if d = ']' then some (.arr [], r2)
          else
            match readItems fuel (d :: r2) with
            | some (vs, r) => some (.arr vs, r)
            | none => none
      else if c = obrace then
        match rest with
        | [] => none
        | d :: r2 =>
          if d = cbrace then some (.obj [], r2)
          else
            match readFields fuel (d :: r2) with
            | some (ms, r) => some (.obj (buildObj ms), r)
            | none => none
      else
        match c :: rest with
        | 'n' :: 'u' :: 'l' :: 'l' :: r => some (.null, r)
        | 't' :: 'r' :: 'u' :: 'e' :: r => some (.bool true, r)
        | 'f' :: 'a' :: 'l' :: 's' :: 'e' :: r => some (.bool false, r)
        | _ => none
termination_by structural fuel => fuel

/-- Read one or more comma-separated array elements and the closing bracket. -/
def readItems : Nat → List Char → Option (List JVal × List Char)
  | 0, _ => none
  | fuel + 1, cs =>
    match readVal fuel cs with
    | none => none
    | some (v, r) =>
      match r with
      | ',' :: r2 =>
        match readItems fuel r2 with
        | some (vs, r3) => some (v :: vs, r3)
        | none => none
      | ']' :: r2 => some ([v], r2)
      | _ => none
termination_by structural fuel => fuel

/-- Read one or more comma-separated object members and the closing brace; the
raw member list is returned, duplicate keys and all, and the caller folds it
through `buildObj` exactly as repeated property assignment would. -/
def readFields : Nat → List Char → Option (List (String × JVal) × List Char)
  | 0, _ => none
  | fuel + 1, cs =>
    match cs with
    | [] => none
    | c :: r =>
      if c = '\"' then
        match readStr r with
        | none => none
        | some (kl, r1) =>
          match r1 with
          | ':' :: r2 =>
            match readVal fuel r2 with
            | none => none
            | some (v, r3) =>
              match r3 with
              | ',' :: r4 =>
                match readFields fuel r4 with
                | some (ms, r5) => some ((⟨kl⟩, v) :: ms, r5)
                | none => none
              | d :: r4 => if d = cbrace then some ([(⟨kl⟩, v)], r4) else none
              | [] => none
          | _ => none
      else none
termination_by structural fuel => fuel

end

/-- `JSON.parse` on a whole text: enough fuel for any input of this length,
and the text must be consumed entirely. -/
def readJSON (cs : List Char) : Option JVal :=
  match readVal (cs.length + 2) cs with
  | some (v, []) => some v
  | _ => none

/-! ### The service methods -/

/-- `stringify`: `JSON.stringify` behind a try/catch.  On the embedded domain
the values carry no functions, no undefined and no cycles, so stringify never
throws and never yields undefined; the catch branch is unreachable. -/
def stringify (data : JVal) : String := ⟨serChars data⟩

/-- `parse`: `JSON.parse` behind a try/catch, yielding the caller's default
value when parsing fails. -/
def parse (json : String) (defaultValue : JVal) : JVal :=
  match readJSON json.data with
  | some v => v
  | none => defaultValue

/-- `deepCopy`: stringify then parse; the catch branch would yield none. -/
def deepCopy (data : JVal) : Option JVal := readJSON (serChars data)

/-- `equalJSON`: equality of the serialized texts (the try/catch never fires
on the embedded domain). -/
def equalJSON (a b : JVal) : Bool := serChars a == serChars b

mutual

/-- The inner helper of `deepEqualJSON`: strict equality first, then the
both-arrays element-wise walk, then — for any two object-like values, arrays
included — the key comparison `keysA.length == keysB.length` and
`keysA.every(key => keysB.includes(key) && helper(a[key], b[key]))`. -/
def deepEqualHelper : JVal → JVal → Bool
  | a, b =>
    if primEq a b then true
    else
      match a, b with
      | .arr xs, .arr ys => xs.length == ys.length && dehItems xs ys
      | .obj fs, b2 =>
        if isObjLike b2 then (fs.length == ownLen b2) && dehFields fs b2 else false
      | .arr xs, b2 =>
        if isObjLike b2 then (xs.length == ownLen b2) && dehIdx 0 xs b2 else false
      | _, _ => false
termination_by structural a => a

/-- Element-wise comparison of two arrays, `a.every((x, i) => helper x b[i])`. -/
def dehItems : List JVal → List JVal → Bool
  | [], _ => true
  | _ :: _, [] => false
  | x :: xs, y :: ys => deepEqualHelper x y && dehItems xs ys
termination_by structural l => l

/-- Key-wise comparison of an object's fields against another object-like value. -/
def dehFields : List (String × JVal) → JVal → Bool
  | [], _ => true
  | (k, av) :: rest, b =>
    ((ownKeys b).contains k && deepEqualHelper av (getPropD b k)) && dehFields rest b
termination_by structural l => l

/-- Key-wise comparison of an array's indexed entries against an object-like value. -/
def dehIdx : Nat → List JVal → JVal → Bool
  | _, [], _ => true
  | i, x :: xs, b =>
    ((ownKeys b).contains (natStr i) && deepEqualHelper x (getPropD b (natStr i))) && dehIdx (i + 1) xs b
termination_by structural _ l => l

end

/-- `deepEqualJSON`: the recursive structural comparison. -/
def deepEqualJSON (a b : JVal) : Bool := deepEqualHelper a b

/-- `deepMerge`: serialize both operands, splice the two top-level member
texts (the serializations with their outer braces cut off by `slice(1, -1)`)
into one object literal, and parse it back; when `JSON.parse` throws — as it
does when either slice is empty — the catch returns the original target. -/
def deepMerge (target source : JVal) : JVal :=
  let tc := serChars target
  let sc := serChars source
  let spliced := obrace :: ((tc.drop 1).dropLast ++ ',' :: ((sc.drop 1).dropLast ++ [cbrace]))
  match readJSON spliced with
  | some m => m
  | none => target

/-- The fallback `acc[key] || {}` of `deepUpdate`: a missing or falsy current
value is replaced by an empty object before recursing. -/
def orEmptyObj : Option JVal → JVal
  | none => .obj []
  | some v => if truthy v then v else .obj []

mutual

/-- The reduce body of `deepUpdate` over the parsed updates' entries, starting
from the spread `{...target}`: an object-valued entry recurses into
`deepUpdate(acc[key] || {}, value)`, any other value is assigned as a whole.
The source's recursive call re-enters `deepUpdate`, whose first step
re-serializes and re-parses the nested object; that object came out of the
parser, so the round trip is the identity on it (`readJSON_serChars` together
with `normal_id` below) and the embedding recurses directly. -/
def duGo : List (String × JVal) → List (String × JVal) → List (String × JVal)
  | acc, [] => acc
  | acc, (k, v) :: rest => duGo (setField acc k (duApply (lookupStr acc k) v)) rest
termination_by structural _ entries => entries

/-- One entry of the reduce: an object-valued update recurses into the spread
of `acc[key] || {}`, any other value replaces as a whole. -/
def duApply : Option JVal → JVal → JVal
  | old, .obj gs => .obj (duGo (ownEntries (orEmptyObj old)) gs)
  | _, v => v
termination_by structural _ v => v

end

/-- `deepUpdate`: re-parse the serialized updates (the replacer only strips
functions and undefined, which the domain lacks), then reduce over
`Object.keys` of the result starting from `{...target}`.  `Object.keys(null)`
throws, so a null updates value lands in the catch and returns the target. -/
def deepUpdate (target updates : JVal) : JVal :=
  match readJSON (serChars updates) with
  | none => target
  | some .null => target
  | some pu => .obj (duGo (ownEntries target) (ownEntries pu))

mutual

/-- `findValueByKey`: own-key hit first (`key in obj`), then a scan of the own
members in iteration order, descending into every member with
`typeof obj[k] === 'object' && obj[k] !== null` — objects and arrays alike.
The service receives only object-like values; `key in v` on a primitive would
throw and is not reachable. -/
def findValueByKey : JVal → String → Option JVal
  | .obj fs, key =>
    (match lookupStr fs key with
     | some x => some x
     | none => fvkFields fs key)
  | .arr xs, key =>
    (match getProp (.arr xs) key with
     | some x => some x
     | none => fvkItems xs key)
  | _, _ => none
termination_by structural v => v

/-- Scan of an object's members for `findValueByKey`. -/
def fvkFields : List (String × JVal) → String → Option JVal
  | [], _ => none
  | (_, x) :: rest, key =>
    if isObjLike x then
      match findValueByKey x key with
      | some r => some r
      | none => fvkFields rest key
    else fvkFields rest key
termination_by structural l => l

/-- Scan of an array's elements for `findValueByKey`. -/
def fvkItems : List JVal → String → Option JVal
  | [], _ => none
  | x :: rest, key =>
    if isObjLike x then
      match findValueByKey x key with
      | some r => some r
      | none => fvkItems rest key
    else fvkItems rest key
termination_by structural l => l

end

/-- `safeFindValueByKey`: the same traversal wrapped in try/catch; on the
embedded domain no step can throw, so it coincides with `findValueByKey`. -/
def safeFindValueByKey (v : JVal) (key : String) : Option JVal := findValueByKey v key

/-- The filter of `removeEmptyValues`: `v != null && v !== ''` (loose
inequality with null also drops undefined, which the domain lacks). -/
def keepEntry : JVal → Bool
  | .null => false
  | .str s => !(s == "")
  | _ => true

/-- `removeEmptyValues`: any non-object-like input yields `{}`; otherwise the
own entries are filtered and rebuilt with `Object.fromEntries`. -/
def removeEmptyValues (o : JVal) : JVal :=
  if isObjLike o then .obj (buildObj ((ownEntries o).filter (fun p => keepEntry p.2)))
  else .obj []

/-- `getByPath`: a non-object-like root yields undefined; otherwise the path
is folded with `acc && acc[key] !== undefined ? acc[key] : undefined`. -/
def getByPath (o : JVal) (path : List String) : Option JVal :=
  if isObjLike o then
    path.foldl
      (fun acc key =>
        match acc with
        | some a => if truthy a then getProp a key else none
        | none => none)
      (some o)
  else none

/-- One level of `Array.prototype.flat`. -/
def flatOnce : List JVal → List JVal
  | [] => []
  | .arr ys :: rest => ys ++ flatOnce rest
  | v :: rest => v :: flatOnce rest

/-- The push condition of `mergeUniqueByKey`: the element is truthy, has the
key as an own property, and no already-kept item's key value is strictly
(`===`) equal to the element's. -/
def muKeep (key : String) (acc : List JVal) (o : JVal) : Bool :=
  truthy o && (getProp o key).isSome
    && !(acc.any (fun item => primEqO (getProp item key) (getProp o key)))

/-- `mergeUniqueByKey`: flatten one level, then fold, pushing each element
that passes `muKeep`; non-array input yields an empty array. -/
def mergeUniqueByKey (arrays : JVal) (key : String) : JVal :=
  match arrays with
  | .arr xs =>
    .arr ((flatOnce xs).foldl (fun acc o => if muKeep key acc o then acc ++ [o] else acc) [])
  | _ => .arr []

/-- Dotted key join: an empty prefix is falsy, so the bare key is used. -/
def joinKey (pre k : String) : String := if pre = "" then k else pre ++ "." ++ k

mutual

/-- The entry list built by `flattenObject`: a non-object-like input
contributes nothing; object and array entries are folded in order, each
object-like value flattened recursively into a fresh object that is then
`Object.assign`ed into the accumulator, each other value assigned under its
dotted key. -/
def flattenVal : JVal → String → List (String × JVal)
  | .obj fs, pre => floFields pre [] fs
  | .arr xs, pre => floItems pre [] 0 xs
  | _, _ => []
termination_by structural v => v

/-- Fold of `flattenObject` over an object's entries. -/
def floFields : String → List (String × JVal) → List (String × JVal) → List (String × JVal)
  | _, acc, [] => acc
  | pre, acc, (k, v) :: rest =>
    floFields pre
      (if isObjLike v then assignAll acc (flattenVal v (joinKey pre k))
       else setField acc (joinKey pre k) v)
      rest
termination_by structural _ _ l => l

/-- Fold of `flattenObject` over an array's indexed entries. -/
def floItems : String → List (String × JVal) → Nat → List JVal → List (String × JVal)
  | _, acc, _, [] => acc
  | pre, acc, i, v :: rest =>
    floItems pre
      (if isObjLike v then assignAll acc (flattenVal v (joinKey pre (natStr i)))
       else setField acc (joinKey pre (natStr i)) v)
      (i + 1)
      rest
termination_by structural _ _ _ l => l

end

/-- `flattenObject` itself: the built entry list as an object. -/
def flattenObject (o : JVal) (pre : String) : JVal := .obj (flattenVal o pre)

/-! ### Specification-side definitions (for the refinement statements) -/

/-- Stated from the specification: walk a path step by step, each step reading
one own property of a truthy current value. -/
def specWalk : JVal → List String → Option JVal
  | v, [] => some v
  | v, key :: rest =>
    if truthy v then
      match getProp v key with
      | some w => specWalk w rest
      | none => none
    else none

mutual

/-- Stated from the specification: the pre-order list of values a key search
can return — the own hit first, then the hits inside each object-like member
in iteration order. -/
def specHits : JVal → String → List JVal
  | .obj fs, key => (lookupStr fs key).toList ++ specHitsF fs key
  | .arr xs, key => (getProp (.arr xs) key).toList ++ specHitsI xs key
  | _, _ => []
termination_by structural v => v

/-- Hits inside an object's members. -/
def specHitsF : List (String × JVal) → String → List JVal
  | [], _ => []
  | (_, x) :: rest, key => (if isObjLike x then specHits x key else []) ++ specHitsF rest key
termination_by structural l => l

/-- Hits inside an array's elements. -/
def specHitsI : List JVal → String → List JVal
  | [], _ => []
  | x :: rest, key => (if isObjLike x then specHits x key else []) ++ specHitsI rest key
termination_by structural l => l

end

mutual

/-- Stated from the specification (amended): the dotted-key leaf entries of a
value — non-object-like values are leaves, object fields and array elements
are descended into with their key or canonical index joined onto the prefix. -/
def specLeaves : JVal → String → List (String × JVal)
  | .obj fs, pre => specLeavesF pre fs
  | .arr xs, pre => specLeavesI pre 0 xs
  | v, pre => [(pre, v)]
termination_by structural v => v

/-- Leaf entries below an object's fields. -/
def specLeavesF : String → List (String × JVal) → List (String × JVal)
  | _, [] => []
  | pre, (k, v) :: rest => specLeaves v (joinKey pre k) ++ specLeavesF pre rest
termination_by structural _ l => l

/-- Leaf entries below an array's elements. -/
def specLeavesI : String → Nat → List JVal → List (String × JVal)
  | _, _, [] => []
  | pre, i, v :: rest => specLeaves v (joinKey pre (natStr i)) ++ specLeavesI pre (i + 1) rest
termination_by structural _ _ l => l

end

/-! ### Well-formedness and parse normalization -/

/-- The key list of an entry list. -/
def keyList (fs : List (String × JVal)) : List String := fs.map Prod.fst

/-- No key occurs twice. -/
def nodupKeys : List (String × JVal) → Bool
  | [] => true
  | (k, _) :: fs => !((keyList fs).contains k) && nodupKeys fs

mutual

/-- A value is representable as a materialized JavaScript value exactly when
every object level carries pairwise distinct keys (a JS object cannot hold a
key twice). -/
def wf : JVal → Bool
  | .obj fs => nodupKeys fs && wfF fs
  | .arr xs => wfI xs
  | _ => true
termination_by structural v => v

/-- Well-formedness of every element. -/
def wfI : List JVal → Bool
  | [] => true
  | x :: xs => wf x && wfI xs
termination_by structural l => l

/-- Well-formedness of every field value. -/
def wfF : List (String × JVal) → Bool
  | [] => true
  | (_, v) :: fs => wf v && wfF fs
termination_by structural l => l

end

mutual

/-- What materializing a value through JavaScript object construction does:
at every object level, duplicated keys collapse to the last value at the first
position.  `readVal` on a serialization returns exactly the normalization. -/
def normal : JVal → JVal
  | .obj fs => .obj (buildObj (normalF fs))
  | .arr xs => .arr (normalI xs)
  | v => v
termination_by structural v => v

/-- Normalization of every element. -/
def normalI : List JVal → List JVal
  | [] => []
  | x :: xs => normal x :: normalI xs
termination_by structural l => l

/-- Normalization of every field value. -/
def normalF : List (String × JVal) → List (String × JVal)
  | [] => []
  | (k, v) :: fs => (k, normal v) :: normalF fs
termination_by structural l => l

end

/-! ### Basic infrastructure: induction principle and decidable equality -/

/-- Structural induction over the nested inductive `JVal`, with membership
hypotheses for the children. -/
theorem JVal.inductionOn {P : JVal → Prop}
    (hnull : P .null) (hbool : ∀ b, P (.bool b)) (hnum : ∀ n, P (.num n))
    (hstr : ∀ s, P (.str s))
    (harr : ∀ xs, (∀ x ∈ xs, P x) → P (.arr xs))
    (hobj : ∀ fs, (∀ p ∈ fs, P p.2) → P (.obj fs)) : ∀ v, P v := by
  have key : ∀ n v, sizeOf v ≤ n → P v := by
    intro n
    induction n with
    | zero => intro v hv; cases v <;> simp_arith at hv
    | succ n ih =>
      intro v hv
      cases v with
      | null => exact hnull
      | bool b => exact hbool b
      | num m => exact hnum m
      | str s => exact hstr s
      | arr xs =>
        refine harr xs (fun x hx => ih x ?_)
        have h1 := List.sizeOf_lt_of_mem hx
        simp_arith at hv
        omega
      | obj fs =>
        refine hobj fs (fun p hp => ih p.2 ?_)
        have h1 := List.sizeOf_lt_of_mem hp
        have h2 : sizeOf p.2 < sizeOf p := by cases p; simp_arith
        simp_arith at hv
        omega
  exact fun v => key (sizeOf v) v (Nat.le_refl _)

theorem beqV_iff : ∀ a b : JVal, beqV a b = true ↔ a = b := by
  intro a
  induction a using JVal.inductionOn with
  | hnull => intro b; cases b <;> simp [beqV]
  | hbool x => intro b; cases b <;> simp [beqV]
  | hnum x => intro b; cases b <;> simp [beqV]
  | hstr x => intro b; cases b <;> simp [beqV]
  | harr xs ih =>
    intro b
    cases b with
    | arr ys =>
      simp only [beqV, JVal.arr.injEq]
      induction xs generalizing ys with
      | nil => cases ys <;> simp [beqVItems]
      | cons x xs ihl =>
        cases ys with
        | nil => simp [beqVItems]
        | cons y ys =>
          rw [beqVItems, Bool.and_eq_true,
              ih x (List.mem_cons_self x xs) y,
              ihl (fun z hz => ih z (List.mem_cons_of_mem x hz)) ys]
          simp
    | null => simp [beqV]
    | bool y => simp [beqV]
    | num y => simp [beqV]
    | str y => simp [beqV]
    | obj gs => simp [beqV]
  | hobj fs ih =>
    intro b
    cases b with
    | obj gs =>
      simp only [beqV, JVal.obj.injEq]
      induction fs generalizing gs with
      | nil => cases gs <;> simp [beqVFields]
      | cons p fs ihl =>
        obtain ⟨k, v⟩ := p
        cases gs with
        | nil => simp [beqVFields]
        | cons q gs =>
          obtain ⟨l, w⟩ := q
          rw [beqVFields, Bool.and_eq_true, Bool.and_eq_true,
              ih (k, v) (List.mem_cons_self _ fs) w,
              ihl (fun z hz => ih z (List.mem_cons_of_mem _ hz)) gs]
          simp [Prod.ext_iff, and_assoc]
    | null => simp [beqV]
    | bool y => simp [beqV]
    | num y => simp [beqV]
    | str y => simp [beqV]
    | arr ys => simp [beqV]

instance : DecidableEq JVal := fun a b =>
  decidable_of_iff (beqV a b = true) (beqV_iff a b)

/-! ### Decimal digit lemmas -/

theorem digitChar_fin : ∀ n : Fin 10,
    (digitChar n.val).toNat = 48 + n.val ∧ isDig (digitChar n.val) = true := by decide

theorem digitChar_toNat {n : Nat} (h : n < 10) : (digitChar n).toNat = 48 + n :=
  (digitChar_fin ⟨n, h⟩).1

theorem isDig_digitChar {n : Nat} (h : n < 10) : isDig (digitChar n) = true :=
  (digitChar_fin ⟨n, h⟩).2

theorem natCharsF_congr : ∀ (f1 : Nat) (n f2 : Nat), n < f1 → n < f2 →
    natCharsF f1 n = natCharsF f2 n := by
  intro f1
  induction f1 with
  | zero => intro n f2 h1 _; omega
  | succ f ih =>
    intro n f2 h1 h2
    cases f2 with
    | zero => omega
    | succ f2 =>
      rw [natCharsF, natCharsF]
      by_cases h : n < 10
      · rw [if_pos h, if_pos h]
      · have hd := Nat.div_lt_self (show 0 < n by omega) (show 1 < 10 by omega)
        rw [if_neg h, if_neg h, ih (n / 10) f2 (by omega) (by omega)]

theorem natChars_snoc (n : Nat) :
    natChars n = (if n < 10 then [] else natChars (n / 10)) ++ [digitChar (n % 10)] := by
  show natCharsF (n + 1) n = _
  rw [natCharsF]
  by_cases h : n < 10
  · rw [if_pos h, if_pos h, Nat.mod_eq_of_lt h]
    rfl
  · have hd := Nat.div_lt_self (show 0 < n by omega) (show 1 < 10 by omega)
    rw [if_neg h, if_neg h,
        natCharsF_congr n (n / 10) (n / 10 + 1) (by omega) (by omega)]
    rfl

theorem natChars_ne_nil (n : Nat) : natChars n ≠ [] := by
  rw [natChars_snoc]
  simp

theorem natChars_all_dig (n : Nat) : ∀ c ∈ natChars n, isDig c = true := by
  induction n using Nat.strongRecOn with
  | _ n ih =>
    rw [natChars_snoc]
    intro c hc
    rw [List.mem_append] at hc
    rcases hc with hc | hc
    · by_cases h : n < 10
      · simp [h] at hc
      · exact ih (n / 10) (Nat.div_lt_self (by omega) (by omega)) c (by simpa [h] using hc)
    · rw [List.mem_singleton] at hc
      subst hc
      exact isDig_digitChar (Nat.mod_lt _ (by omega))

theorem natChars_cons (n : Nat) : ∃ c t, natChars n = c :: t ∧ isDig c = true := by
  match h : natChars n with
  | [] => exact absurd h (natChars_ne_nil n)
  | c :: t => exact ⟨c, t, rfl, natChars_all_dig n c (h ▸ List.mem_cons_self ..)⟩

theorem digitsNat_append_one (ds : List Char) (c : Char) :
    digitsNat (ds ++ [c]) = digitsNat ds * 10 + (c.toNat - 48) := by
  simp [digitsNat, List.foldl_append]

theorem digitsNat_natChars (n : Nat) : digitsNat (natChars n) = n := by
  induction n using Nat.strongRecOn with
  | _ n ih =>
    rw [natChars_snoc]
    by_cases h : n < 10
    · rw [if_pos h, List.nil_append]
      show digitsNat [digitChar (n % 10)] = n
      have := digitChar_toNat (show n % 10 < 10 from Nat.mod_lt _ (by omega))
      simp [digitsNat, this]
      omega
    · rw [if_neg h, digitsNat_append_one, ih (n / 10) (Nat.div_lt_self (by omega) (by omega)),
          digitChar_toNat (show n % 10 < 10 from Nat.mod_lt _ (by omega))]
      omega

theorem grabDigits_stop {cs : List Char} (h : stopsNum cs = true) :
    grabDigits cs = ([], cs) := by
  match cs with
  | [] => rfl
  | c :: t =>
    have hc : isDig c = false := by
      revert h
      rw [stopsNum]
      cases isDig c <;> simp
    simp [grabDigits, hc]

theorem grabDigits_run (ds : List Char) (hds : ∀ c ∈ ds, isDig c = true)
    (rest : List Char) (hrest : stopsNum rest = true) :
    grabDigits (ds ++ rest) = (ds, rest) := by
  induction ds with
  | nil => simpa using grabDigits_stop hrest
  | cons c t ih =>
    have hc : isDig c = true := hds c (List.mem_cons_self ..)
    have ht := ih (fun x hx => hds x (List.mem_cons_of_mem _ hx))
    simp [grabDigits, hc, ht]

/-! ### String escape round trip -/

theorem unhex_hexDig : ∀ n : Fin 16, unhex (hexDig n.val) = some n.val := by decide

theorem readStr_escList : ∀ (l rest : List Char),
    readStr (escList l ++ '\"' :: rest) = some (l, rest) := by
  intro l
  induction l with
  | nil => intro rest; simp [escList, readStr.eq_def]
  | cons c t ih =>
    intro rest
    rw [escList, List.append_assoc]
    rw [escChar]
    by_cases h1 : c = '\"'
    · subst h1; simp [readStr, unescChar, ih]
    · rw [if_neg h1]
      by_cases h2 : c = '\\'
      · subst h2; simp [readStr, unescChar, ih]
      · rw [if_neg h2]
        by_cases h3 : c = Char.ofNat 8
        · subst h3; simp [readStr, unescChar, ih]
        · rw [if_neg h3]
          by_cases h4 : c = '\t'
          · subst h4; simp [readStr, unescChar, ih]
          · rw [if_neg h4]
            by_cases h5 : c = '\n'
            · subst h5; simp [readStr, unescChar, ih]
            · rw [if_neg h5]
              by_cases h6 : c = Char.ofNat 12
              · subst h6; simp [readStr, unescChar, ih]
              · rw [if_neg h6]
                by_cases h7 : c = '\r'
                · subst h7; simp [readStr, unescChar, ih]
                · rw [if_neg h7]
                  by_cases h8 : c.toNat < 32
                  · rw [if_pos h8]
                    have q1 : unhex (hexDig (c.toNat / 16)) = some (c.toNat / 16) :=
                      unhex_hexDig ⟨c.toNat / 16, by omega⟩
                    have q2 : unhex (hexDig (c.toNat % 16)) = some (c.toNat % 16) :=
                      unhex_hexDig ⟨c.toNat % 16, Nat.mod_lt _ (by omega)⟩
                    have q0 : unhex '0' = some 0 := by decide
                    have hv : ((0 * 16 + 0) * 16 + c.toNat / 16) * 16 + c.toNat % 16 = c.toNat := by
                      omega
                    simp only [List.cons_append, List.nil_append, List.append_eq, readStr,
                      q0, q1, q2, reduceIte, hv, Char.ofNat_toNat, ih]
                    rw [if_neg (show ¬('\\' = '\"') by decide)]
                  · rw [if_neg h8]
                    rw [List.singleton_append, readStr.eq_def]
                    simp only [if_neg h1, if_neg h2, if_neg h8, List.nil_append,
                      List.append_eq, ih]

/-! ### Serializer shape lemmas -/

theorem serItems_one (x : JVal) : serItems [x] = serChars x := rfl

theorem serItems_two (x y : JVal) (ys : List JVal) :
    serItems (x :: y :: ys) = serChars x ++ ',' :: serItems (y :: ys) := rfl

theorem serFields_one (k : String) (v : JVal) :
    serFields [(k, v)] = '\"' :: (escList k.data ++ '\"' :: ':' :: serChars v) := rfl

theorem serFields_two (k : String) (v : JVal) (q : String × JVal) (fs : List (String × JVal)) :
    serFields ((k, v) :: q :: fs)
      = ('\"' :: (escList k.data ++ '\"' :: ':' :: serChars v)) ++ ',' :: serFields (q :: fs) := rfl

theorem serChars_head (v : JVal) :
    ∃ c t, serChars v = c :: t ∧ c ≠ ']' ∧ c ≠ cbrace := by
  cases v with
  | null => exact ⟨'n', _, rfl, by decide, by decide⟩
  | bool b =>
    cases b with
    | true => exact ⟨'t', _, rfl, by decide, by decide⟩
    | false => exact ⟨'f', _, rfl, by decide, by decide⟩
  | str s => exact ⟨'\"', _, rfl, by decide, by decide⟩
  | arr xs => exact ⟨'[', _, rfl, by decide, by decide⟩
  | obj fs => exact ⟨obrace, _, rfl, by decide, by decide⟩
  | num i =>
    show ∃ c t, intChars i = c :: t ∧ c ≠ ']' ∧ c ≠ cbrace
    rw [intChars]
    by_cases h : i < 0
    · rw [if_pos h]
      exact ⟨'-', _, rfl, by decide, by decide⟩
    · rw [if_neg h]
      obtain ⟨c, t, hct, hd⟩ := natChars_cons i.natAbs
      refine ⟨c, t, hct, ?_, ?_⟩
      · intro he; subst he; exact absurd hd (by decide)
      · intro he; subst he; exact absurd hd (by decide)

theorem serChars_len_pos (v : JVal) : 1 ≤ (serChars v).length := by
  obtain ⟨c, t, hct, -, -⟩ := serChars_head v
  rw [hct]
  simp

/-! ### Single-step reductions of the reader -/

theorem readVal_digit (f : Nat) (c : Char) (t : List Char) (hd : isDig c = true) :
    readVal (f + 1) (c :: t)
      = some (.num (Int.ofNat (digitsNat (grabDigits (c :: t)).1)), (grabDigits (c :: t)).2) := by
  simp only [readVal]
  rw [if_pos hd]

theorem readVal_minus (f : Nat) (c : Char) (t : List Char) (hd : isDig c = true) :
    readVal (f + 1) ('-' :: c :: t)
      = some (.num (-(Int.ofNat (digitsNat (grabDigits (c :: t)).1))), (grabDigits (c :: t)).2) := by
  have h1 : isDig '-' = false := rfl
  simp only [readVal, reduceIte, h1, Bool.false_eq_true, if_false]
  rw [if_pos hd]

theorem readVal_quote (f : Nat) (t : List Char) :
    readVal (f + 1) ('\"' :: t)
      = (match readStr t with
         | some (sl, r) => some (JVal.str ⟨sl⟩, r)
         | none => none) := by
  have h1 : isDig '\"' = false := rfl
  simp only [readVal, h1, Bool.false_eq_true, if_false,
    if_neg (show ¬('\"' = '-') by decide), reduceIte]

theorem readVal_arr (f : Nat) (d : Char) (r2 : List Char) (hne : d ≠ ']') :
    readVal (f + 1) ('[' :: d :: r2)
      = (match readItems f (d :: r2) with
         | some (vs, r) => some (.arr vs, r)
         | none => none) := by
  have h1 : isDig '[' = false := rfl
  simp only [readVal, reduceIte, h1, Bool.false_eq_true, if_false,
    if_neg (show ¬('[' = '-') by decide), if_neg (show ¬('[' = '\"') by decide)]
  rw [if_neg hne]

theorem readVal_obj (f : Nat) (d : Char) (r2 : List Char) (hne : d ≠ cbrace) :
    readVal (f + 1) (obrace :: d :: r2)
      = (match readFields f (d :: r2) with
         | some (ms, r) => some (.obj (buildObj ms), r)
         | none => none) := by
  have h1 : isDig obrace = false := rfl
  have h2 : ¬(obrace = '-') := by decide
  have h3 : ¬(obrace = '\"') := by decide
  have h4 : ¬(obrace = '[') := by decide
  simp only [readVal, h1, if_neg h2, if_neg h3, if_neg h4, Bool.false_eq_true, if_false,
    reduceIte]
  rw [if_neg hne]

/-! ### The codec round trip -/

mutual

theorem rt_val : ∀ (v : JVal) (fuel : Nat) (rest : List Char),
    (serChars v).length < fuel → stopsNum rest = true →
    readVal fuel (serChars v ++ rest) = some (normal v, rest)
  | .null, fuel, rest, hf, _ => by
    cases fuel with
    | zero => simp [serChars] at hf
    | succ f => rfl
  | .bool b, fuel, rest, hf, _ => by
    cases fuel with
    | zero => cases b <;> simp [serChars] at hf
    | succ f => cases b <;> rfl
  | .num i, fuel, rest, hf, hr => by
    cases fuel with
    | zero => exact absurd hf (by omega)
    | succ f =>
      show readVal (f + 1) (intChars i ++ rest) = some (.num i, rest)
      rw [intChars]
      by_cases hneg : i < 0
      · rw [if_pos hneg]
        obtain ⟨c, t, hct, hd⟩ := natChars_cons i.natAbs
        rw [hct, List.cons_append, List.cons_append, readVal_minus f c (t ++ rest) hd,
            ← List.cons_append, ← hct,
            grabDigits_run (natChars i.natAbs) (natChars_all_dig _) rest hr,
            digitsNat_natChars, Int.ofNat_eq_natCast]
        have hval : -((i.natAbs : Int)) = i := by omega
        rw [hval]
      · rw [if_neg hneg]
        obtain ⟨c, t, hct, hd⟩ := natChars_cons i.natAbs
        rw [hct, List.cons_append, readVal_digit f c (t ++ rest) hd, ← List.cons_append, ← hct,
            grabDigits_run (natChars i.natAbs) (natChars_all_dig _) rest hr,
            digitsNat_natChars, Int.ofNat_eq_natCast]
        have hval : ((i.natAbs : Int)) = i := by omega
        rw [hval]
  | .str s, fuel, rest, hf, _ => by
    cases fuel with
    | zero => exact absurd hf (by omega)
    | succ f =>
      have harg : serChars (.str s) ++ rest = '\"' :: (escList s.data ++ '\"' :: rest) := by
        show ('\"' :: (escList s.data ++ ['\"'])) ++ rest = _
        simp
      rw [harg, readVal_quote, readStr_escList]
      rfl
  | .arr [], fuel, rest, hf, _ => by
    cases fuel with
    | zero => exact absurd hf (by omega)
    | succ f => rfl
  | .arr (x :: xs), fuel, rest, hf, _ => by
    cases fuel with
    | zero => exact absurd hf (by omega)
    | succ f =>
      have hlen : (serChars (.arr (x :: xs))).length = (serItems (x :: xs)).length + 2 := by
        show ('[' :: (serItems (x :: xs) ++ [']'])).length = _
        simp
      obtain ⟨c, t, hct, hcne, -⟩ := serChars_head x
      have hhead : ∃ u, serItems (x :: xs) = c :: u := by
        cases xs with
        | nil => exact ⟨t, by rw [serItems_one, hct]⟩
        | cons y ys => exact ⟨t ++ ',' :: serItems (y :: ys), by rw [serItems_two, hct]; rfl⟩
      obtain ⟨u, hu⟩ := hhead
      have harg : serChars (.arr (x :: xs)) ++ rest
          = '[' :: (c :: (u ++ ']' :: rest)) := by
        show ('[' :: (serItems (x :: xs) ++ [']'])) ++ rest = _
        rw [hu]
        simp
      rw [harg, readVal_arr f c (u ++ ']' :: rest) hcne]
      have key := rt_items x xs f rest (by omega)
      rw [hu] at key
      rw [List.cons_append] at key
      rw [key]
      rfl
  | .obj [], fuel, rest, hf, _ => by
    cases fuel with
    | zero => exact absurd hf (by omega)
    | succ f => rfl
  | .obj ((k, v) :: fs), fuel, rest, hf, _ => by
    cases fuel with
    | zero => exact absurd hf (by omega)
    | succ f =>
      have hlen : (serChars (.obj ((k, v) :: fs))).length
          = (serFields ((k, v) :: fs)).length + 2 := by
        show (obrace :: (serFields ((k, v) :: fs) ++ [cbrace])).length = _
        simp
      have hhead : ∃ u, serFields ((k, v) :: fs) = '\"' :: u := by
        cases fs with
        | nil => exact ⟨_, serFields_one k v⟩
        | cons q gs => exact ⟨_, serFields_two k v q gs⟩
      obtain ⟨u, hu⟩ := hhead
      have hne : ('\"' : Char) ≠ cbrace := by decide
      have harg : serChars (.obj ((k, v) :: fs)) ++ rest
          = obrace :: ('\"' :: (u ++ cbrace :: rest)) := by
        show (obrace :: (serFields ((k, v) :: fs) ++ [cbrace])) ++ rest = _
        rw [hu]
        simp
      rw [harg, readVal_obj f '\"' (u ++ cbrace :: rest) hne]
      have key := rt_fields (k, v) fs f rest (by omega)
      rw [hu] at key
      rw [List.cons_append] at key
      rw [key]
      rfl
termination_by v => sizeOf v
decreasing_by all_goals (simp_wf <;> omega)

theorem rt_items : ∀ (x : JVal) (xs : List JVal) (fuel : Nat) (rest : List Char),
    (serItems (x :: xs)).length + 1 < fuel →
    readItems fuel (serItems (x :: xs) ++ ']' :: rest) = some (normalI (x :: xs), rest)
  | x, [], fuel, rest, hf => by
    cases fuel with
    | zero => omega
    | succ f =>
      rw [serItems_one] at hf ⊢
      have hv := rt_val x f (']' :: rest) (by omega) rfl
      show readItems (f + 1) (serChars x ++ ']' :: rest) = some ([normal x], rest)
      simp only [readItems, hv]
  | x, y :: ys, fuel, rest, hf => by
    cases fuel with
    | zero => omega
    | succ f =>
      rw [serItems_two] at hf ⊢
      have hx1 := serChars_len_pos x
      have hlen : (serChars x ++ ',' :: serItems (y :: ys)).length
          = (serChars x).length + 1 + (serItems (y :: ys)).length := by
        simp only [List.length_append, List.length_cons]
        omega
      rw [hlen] at hf
      have hv := rt_val x f (',' :: (serItems (y :: ys) ++ ']' :: rest)) (by omega) rfl
      have key := rt_items y ys f rest (by omega)
      show readItems (f + 1)
          ((serChars x ++ ',' :: serItems (y :: ys)) ++ ']' :: rest)
          = some (normal x :: normalI (y :: ys), rest)
      rw [List.append_assoc, List.cons_append]
      simp only [readItems, hv, key]
termination_by x xs => sizeOf x + sizeOf xs
decreasing_by all_goals (simp_wf <;> omega)

theorem rt_fields : ∀ (p : String × JVal) (fs : List (String × JVal)) (fuel : Nat)
    (rest : List Char),
    (serFields (p :: fs)).length + 1 < fuel →
    readFields fuel (serFields (p :: fs) ++ cbrace :: rest)
      = some (normalF (p :: fs), rest)
  | (k, v), [], fuel, rest, hf => by
    cases fuel with
    | zero => omega
    | succ f =>
      rw [serFields_one] at hf ⊢
      have hlen : ('\"' :: (escList k.data ++ '\"' :: ':' :: serChars v)).length
          = (escList k.data).length + 3 + (serChars v).length := by simp; omega
      rw [hlen] at hf
      have hv := rt_val v f (cbrace :: rest) (by omega) rfl
      have harg : ('\"' :: (escList k.data ++ '\"' :: ':' :: serChars v)) ++ cbrace :: rest
          = '\"' :: (escList k.data ++ '\"' :: (':' :: (serChars v ++ cbrace :: rest))) := by
        simp
      rw [harg]
      show readFields (f + 1) _ = _
      simp only [readFields, reduceIte, readStr_escList, hv]
      rfl
  | (k, v), q :: gs, fuel, rest, hf => by
    cases fuel with
    | zero => omega
    | succ f =>
      rw [serFields_two] at hf ⊢
      have hlen : (('\"' :: (escList k.data ++ '\"' :: ':' :: serChars v)) ++
          ',' :: serFields (q :: gs)).length
          = (escList k.data).length + 4 + (serChars v).length
            + (serFields (q :: gs)).length := by simp; omega
      rw [hlen] at hf
      have hv := rt_val v f (',' :: (serFields (q :: gs) ++ cbrace :: rest)) (by omega) rfl
      have key := rt_fields q gs f rest (by omega)
      have harg : (('\"' :: (escList k.data ++ '\"' :: ':' :: serChars v)) ++
            ',' :: serFields (q :: gs)) ++ cbrace :: rest
          = '\"' :: (escList k.data ++ '\"' :: (':' ::
              (serChars v ++ ',' :: (serFields (q :: gs) ++ cbrace :: rest)))) := by
        simp
      rw [harg]
      show readFields (f + 1) _ = _
      simp only [readFields, reduceIte, readStr_escList, hv, key]
      rfl
termination_by p fs => sizeOf p + sizeOf fs
decreasing_by all_goals (simp_wf <;> omega)

end

/-- The round trip of the codec: reading back a serialization yields the
normalization (`JSON.parse` of `JSON.stringify` output, with duplicate keys
collapsed last-value-wins as repeated assignment does). -/
theorem readJSON_serChars (v : JVal) : readJSON (serChars v) = some (normal v) := by
  rw [readJSON]
  have h := rt_val v ((serChars v).length + 2) [] (by omega) rfl
  rw [List.append_nil] at h
  rw [h]

/-! ### Association-list lemmas -/

theorem keyList_cons (k0 : String) (v0 : JVal) (t : List (String × JVal)) :
    keyList ((k0, v0) :: t) = k0 :: keyList t := rfl

theorem keyList_append (a b : List (String × JVal)) :
    keyList (a ++ b) = keyList a ++ keyList b := by
  simp [keyList]

theorem nodupKeys_cons_iff (k0 : String) (v0 : JVal) (t : List (String × JVal)) :
    nodupKeys ((k0, v0) :: t) = true ↔ (¬ k0 ∈ keyList t) ∧ nodupKeys t = true := by
  rw [nodupKeys, Bool.and_eq_true]
  simp

theorem lookupStr_not_mem : ∀ (l : List (String × JVal)) (k : String),
    ¬ k ∈ keyList l → lookupStr l k = none := by
  intro l
  induction l with
  | nil => intro k _; rfl
  | cons p t ih =>
    obtain ⟨k0, v0⟩ := p
    intro k hk
    rw [keyList_cons] at hk
    rw [lookupStr, if_neg (fun he => hk (by subst he; exact List.mem_cons_self ..)),
        ih k (fun hm => hk (List.mem_cons_of_mem _ hm))]

theorem lookupStr_append (a b : List (String × JVal)) (k : String) :
    lookupStr (a ++ b) k = orO (lookupStr a k) (lookupStr b k) := by
  induction a with
  | nil => rfl
  | cons p t ih =>
    obtain ⟨k0, v0⟩ := p
    rw [List.cons_append, lookupStr, lookupStr]
    by_cases h : k0 = k
    · rw [if_pos h, if_pos h]; rfl
    · rw [if_neg h, if_neg h, ih]

theorem lookupStr_setField (l : List (String × JVal)) (k k2 : String) (v : JVal) :
    lookupStr (setField l k v) k2 = if k = k2 then some v else lookupStr l k2 := by
  induction l with
  | nil => simp [setField, lookupStr]
  | cons p t ih =>
    obtain ⟨k0, v0⟩ := p
    rw [setField]
    by_cases h : k0 = k
    · subst h
      rw [if_pos rfl, lookupStr, lookupStr]
      by_cases h2 : k0 = k2
      · rw [if_pos h2, if_pos h2]
      · rw [if_neg h2, if_neg h2, if_neg h2]
    · have hs : ¬ k = k0 := fun he => h he.symm
      rw [if_neg h, lookupStr, lookupStr]
      by_cases h2 : k0 = k2
      · subst h2
        rw [if_pos rfl, if_pos rfl, if_neg hs]
      · rw [if_neg h2, if_neg h2, ih]

theorem setField_not_mem : ∀ (l : List (String × JVal)) (k : String) (v : JVal),
    ¬ k ∈ keyList l → setField l k v = l ++ [(k, v)] := by
  intro l
  induction l with
  | nil => intro k v _; rfl
  | cons p t ih =>
    obtain ⟨k0, v0⟩ := p
    intro k v hk
    rw [keyList_cons] at hk
    rw [setField, if_neg (fun he => hk (by subst he; exact List.mem_cons_self ..)),
        ih k v (fun hm => hk (List.mem_cons_of_mem _ hm)), List.cons_append]

theorem keyList_setField : ∀ (l : List (String × JVal)) (k : String) (v : JVal),
    k ∈ keyList l → keyList (setField l k v) = keyList l := by
  intro l
  induction l with
  | nil => intro k v h; simp [keyList] at h
  | cons p t ih =>
    obtain ⟨k0, v0⟩ := p
    intro k v hk
    rw [setField]
    by_cases h : k0 = k
    · rw [if_pos h]
      rw [keyList_cons, keyList_cons, h]
    · rw [if_neg h]
      rw [keyList_cons] at hk
      have hmem : k ∈ keyList t := by
        rcases List.mem_cons.mp hk with hk1 | hk2
        · exact absurd hk1.symm h
        · exact hk2
      rw [keyList_cons, keyList_cons, ih k v hmem]

theorem assignAll_disjoint : ∀ (l acc : List (String × JVal)),
    nodupKeys l = true → (∀ k ∈ keyList l, ¬ k ∈ keyList acc) →
    assignAll acc l = acc ++ l := by
  intro l
  induction l with
  | nil => intro acc _ _; simp [assignAll]
  | cons p t ih =>
    obtain ⟨k0, v0⟩ := p
    intro acc hnd hdisj
    rw [nodupKeys_cons_iff] at hnd
    have hk0 : ¬ k0 ∈ keyList acc :=
      hdisj k0 (by rw [keyList_cons]; exact List.mem_cons_self ..)
    have step : assignAll acc ((k0, v0) :: t) = assignAll (setField acc k0 v0) t := rfl
    rw [step, setField_not_mem acc k0 v0 hk0, ih (acc ++ [(k0, v0)]) hnd.2 ?_]
    · simp
    · intro k hk
      rw [keyList_append, List.mem_append]
      push_neg
      refine ⟨hdisj k (by rw [keyList_cons]; exact List.mem_cons_of_mem _ hk), ?_⟩
      intro hmem
      have hkk0 : k = k0 := by simpa [keyList] using hmem
      exact hnd.1 (hkk0 ▸ hk)

theorem buildObj_nodup (fs : List (String × JVal)) (h : nodupKeys fs = true) :
    buildObj fs = fs := by
  rw [buildObj, assignAll_disjoint fs [] h (by intro k _; simp [keyList])]
  rfl

theorem lookupStr_assignAll : ∀ (l acc : List (String × JVal)) (k : String),
    lookupStr (assignAll acc l) k
      = orO (lookupStr l.reverse k) (lookupStr acc k) := by
  intro l
  induction l with
  | nil => intro acc k; rfl
  | cons p t ih =>
    obtain ⟨k0, v0⟩ := p
    intro acc k
    have step : assignAll acc ((k0, v0) :: t) = assignAll (setField acc k0 v0) t := rfl
    rw [step, ih, lookupStr_setField, List.reverse_cons, lookupStr_append]
    cases hrev : lookupStr t.reverse k with
    | some w => rfl
    | none =>
      show (if k0 = k then some v0 else lookupStr acc k)
          = orO (orO none (lookupStr [(k0, v0)] k)) (lookupStr acc k)
      rw [lookupStr]
      by_cases h : k0 = k
      · rw [if_pos h, if_pos h]; rfl
      · rw [if_neg h, if_neg h]; rfl

theorem lookupStr_reverse_nodup : ∀ (l : List (String × JVal)) (k : String),
    nodupKeys l = true → lookupStr l.reverse k = lookupStr l k := by
  intro l
  induction l with
  | nil => intro k _; rfl
  | cons p t ih =>
    obtain ⟨k0, v0⟩ := p
    intro k hnd
    rw [nodupKeys_cons_iff] at hnd
    rw [List.reverse_cons, lookupStr_append, ih k hnd.2]
    by_cases h : k0 = k
    · subst h
      have h1 : lookupStr [(k0, v0)] k0 = some v0 := by rw [lookupStr, if_pos rfl]
      have h2 : lookupStr ((k0, v0) :: t) k0 = some v0 := by rw [lookupStr, if_pos rfl]
      rw [lookupStr_not_mem t k0 hnd.1, h1, h2]
      rfl
    · have h1 : lookupStr [(k0, v0)] k = none := by rw [lookupStr, if_neg h]; rfl
      have h2 : lookupStr ((k0, v0) :: t) k = lookupStr t k := by rw [lookupStr, if_neg h]
      rw [h1, h2]
      cases lookupStr t k <;> rfl

/-! ### Well-formedness makes normalization the identity -/

theorem wfF_mem : ∀ (fs : List (String × JVal)), wfF fs = true → ∀ p ∈ fs, wf p.2 = true := by
  intro fs
  induction fs with
  | nil => intro _ p hp; cases hp
  | cons q t ih =>
    obtain ⟨k, v⟩ := q
    intro h p hp
    rw [wfF, Bool.and_eq_true] at h
    rcases List.mem_cons.mp hp with h1 | h2
    · subst h1; exact h.1
    · exact ih h.2 p h2

theorem wfI_mem : ∀ (xs : List JVal), wfI xs = true → ∀ x ∈ xs, wf x = true := by
  intro xs
  induction xs with
  | nil => intro _ x hx; cases hx
  | cons y t ih =>
    intro h x hx
    rw [wfI, Bool.and_eq_true] at h
    rcases List.mem_cons.mp hx with h1 | h2
    · subst h1; exact h.1
    · exact ih h.2 x h2

theorem normalI_id : ∀ (xs : List JVal),
    (∀ x ∈ xs, wf x = true → normal x = x) → wfI xs = true → normalI xs = xs := by
  intro xs
  induction xs with
  | nil => intro _ _; rfl
  | cons x t ih =>
    intro hp h
    rw [wfI, Bool.and_eq_true] at h
    rw [normalI, hp x (List.mem_cons_self ..) h.1,
        ih (fun y hy => hp y (List.mem_cons_of_mem _ hy)) h.2]

theorem normalF_id : ∀ (fs : List (String × JVal)),
    (∀ p ∈ fs, wf p.2 = true → normal p.2 = p.2) → wfF fs = true → normalF fs = fs := by
  intro fs
  induction fs with
  | nil => intro _ _; rfl
  | cons q t ih =>
    obtain ⟨k, v⟩ := q
    intro hp h
    rw [wfF, Bool.and_eq_true] at h
    rw [normalF, hp (k, v) (List.mem_cons_self ..) h.1,
        ih (fun y hy => hp y (List.mem_cons_of_mem _ hy)) h.2]

theorem normal_id : ∀ v : JVal, wf v = true → normal v = v := by
  intro v
  induction v using JVal.inductionOn with
  | hnull => intro _; rfl
  | hbool b => intro _; rfl
  | hnum n => intro _; rfl
  | hstr s => intro _; rfl
  | harr xs ih =>
    intro h
    have h2 : wfI xs = true := h
    show JVal.arr (normalI xs) = JVal.arr xs
    rw [normalI_id xs ih h2]
  | hobj fs ih =>
    intro h
    have h2 : (nodupKeys fs && wfF fs) = true := h
    rw [Bool.and_eq_true] at h2
    show JVal.obj (buildObj (normalF fs)) = JVal.obj fs
    rw [normalF_id fs ih h2.2, buildObj_nodup fs h2.1]

/-- Reading back the serialization of a representable value gives it back. -/
theorem readJSON_serChars_wf (v : JVal) (h : wf v = true) : readJSON (serChars v) = some v := by
  rw [readJSON_serChars, normal_id v h]

/-! ### The deepMerge splice -/

theorem serFields_cons_ne (p : String × JVal) (t : List (String × JVal)) (ht : t ≠ []) :
    serFields (p :: t) = serFields [p] ++ ',' :: serFields t := by
  obtain ⟨k, v⟩ := p
  cases t with
  | nil => exact absurd rfl ht
  | cons q gs => rw [serFields_two, serFields_one]

theorem serFields_append : ∀ (a b : List (String × JVal)), a ≠ [] → b ≠ [] →
    serFields (a ++ b) = serFields a ++ ',' :: serFields b := by
  intro a
  induction a with
  | nil => intro b h _; exact absurd rfl h
  | cons p t ih =>
    intro b _ hb
    cases t with
    | nil => rw [List.cons_append, List.nil_append, serFields_cons_ne p b hb]
    | cons q gs =>
      rw [List.cons_append, serFields_cons_ne p ((q :: gs) ++ b) (by simp),
          serFields_cons_ne p (q :: gs) (by simp), ih b (by simp) hb]
      simp

theorem normalF_append (a b : List (String × JVal)) :
    normalF (a ++ b) = normalF a ++ normalF b := by
  induction a with
  | nil => rfl
  | cons p t ih =>
    obtain ⟨k, v⟩ := p
    rw [List.cons_append, normalF, ih, normalF, List.cons_append]

theorem readFields_bad_head (f : Nat) (c : Char) (r : List Char) (h : ¬ c = '\"') :
    readFields f (c :: r) = none := by
  cases f with
  | zero => rfl
  | succ g => simp only [readFields, if_neg h]

theorem readVal_obrace_comma (f : Nat) (x : List Char) :
    readVal f (obrace :: ',' :: x) = none := by
  cases f with
  | zero => rfl
  | succ g =>
    rw [readVal_obj g ',' x (by decide), readFields_bad_head g ',' x (by decide)]

theorem readFields_trailing_comma : ∀ (fs : List (String × JVal)) (k : String) (v : JVal)
    (f : Nat) (rest : List Char),
    (serFields ((k, v) :: fs)).length + 1 < f →
    readFields f (serFields ((k, v) :: fs) ++ ',' :: cbrace :: rest) = none := by
  intro fs
  induction fs with
  | nil =>
    intro k v f rest hf
    cases f with
    | zero => omega
    | succ g =>
      rw [serFields_one] at hf ⊢
      have hlen : ('\"' :: (escList k.data ++ '\"' :: ':' :: serChars v)).length
          = (escList k.data).length + 3 + (serChars v).length := by simp; omega
      rw [hlen] at hf
      have hv := rt_val v g (',' :: cbrace :: rest) (by omega) rfl
      have harg : ('\"' :: (escList k.data ++ '\"' :: ':' :: serChars v)) ++ ',' :: cbrace :: rest
          = '\"' :: (escList k.data ++ '\"' :: (':' :: (serChars v ++ ',' :: cbrace :: rest))) := by
        simp
      rw [harg]
      show readFields (g + 1) _ = _
      simp only [readFields, reduceIte, readStr_escList, hv,
        readFields_bad_head _ cbrace rest (by decide)]
  | cons q gs ih =>
    intro k v f rest hf
    cases f with
    | zero => omega
    | succ g =>
      rw [serFields_two] at hf ⊢
      have hlen : (('\"' :: (escList k.data ++ '\"' :: ':' :: serChars v)) ++
          ',' :: serFields (q :: gs)).length
          = (escList k.data).length + 4 + (serChars v).length
            + (serFields (q :: gs)).length := by simp; omega
      rw [hlen] at hf
      have hv := rt_val v g (',' :: (serFields (q :: gs) ++ ',' :: cbrace :: rest))
        (by omega) rfl
      obtain ⟨k2, v2⟩ := q
      have key := ih k2 v2 g rest (by omega)
      have harg : (('\"' :: (escList k.data ++ '\"' :: ':' :: serChars v)) ++
            ',' :: serFields ((k2, v2) :: gs)) ++ ',' :: cbrace :: rest
          = '\"' :: (escList k.data ++ '\"' :: (':' ::
              (serChars v ++ ',' :: (serFields ((k2, v2) :: gs) ++ ',' :: cbrace :: rest)))) := by
        simp
      rw [harg]
      show readFields (g + 1) _ = _
      simp only [readFields, reduceIte, readStr_escList, hv, key]

theorem deepMerge_eq_read (t s : JVal) :
    deepMerge t s
      = (match readJSON (obrace :: (((serChars t).drop 1).dropLast ++ ',' ::
          (((serChars s).drop 1).dropLast ++ [cbrace]))) with
         | some m => m
         | none => t) := rfl

theorem serChars_obj_strip (fs : List (String × JVal)) :
    ((serChars (.obj fs)).drop 1).dropLast = serFields fs := by
  show ((obrace :: (serFields fs ++ [cbrace])).drop 1).dropLast = _
  simp

theorem deepMerge_objs (ts ss : List (String × JVal)) (hts : ts ≠ []) (hss : ss ≠ [])
    (hwt : wf (.obj ts) = true) (hws : wf (.obj ss) = true) :
    deepMerge (.obj ts) (.obj ss) = .obj (buildObj (ts ++ ss)) := by
  rw [deepMerge_eq_read, serChars_obj_strip, serChars_obj_strip]
  have hsp : (obrace :: (serFields ts ++ ',' :: (serFields ss ++ [cbrace])))
      = serChars (.obj (ts ++ ss)) := by
    show _ = obrace :: (serFields (ts ++ ss) ++ [cbrace])
    rw [serFields_append ts ss hts hss]
    simp
  rw [hsp, readJSON_serChars]
  show JVal.obj (buildObj (normalF (ts ++ ss))) = JVal.obj (buildObj (ts ++ ss))
  have h1 : (nodupKeys ts && wfF ts) = true := hwt
  have h2 : (nodupKeys ss && wfF ss) = true := hws
  rw [Bool.and_eq_true] at h1 h2
  rw [normalF_append,
      normalF_id ts (fun p _ h => normal_id p.2 h) h1.2,
      normalF_id ss (fun p _ h => normal_id p.2 h) h2.2]

theorem lookupStr_buildObj_append (ts ss : List (String × JVal))
    (hnt : nodupKeys ts = true) (hns : nodupKeys ss = true) (k : String) :
    lookupStr (buildObj (ts ++ ss)) k = orO (lookupStr ss k) (lookupStr ts k) := by
  rw [buildObj, lookupStr_assignAll, List.reverse_append, lookupStr_append,
      lookupStr_reverse_nodup ts k hnt, lookupStr_reverse_nodup ss k hns]
  cases lookupStr ss k <;> cases lookupStr ts k <;> rfl

theorem deepMerge_empty_target (ss : List (String × JVal)) :
    deepMerge (.obj []) (.obj ss) = .obj [] := by
  rw [deepMerge_eq_read, serChars_obj_strip, serChars_obj_strip]
  show (match readJSON (obrace :: (serFields [] ++ ',' :: (serFields ss ++ [cbrace]))) with
        | some m => m
        | none => JVal.obj []) = JVal.obj []
  have hnil : serFields ([] : List (String × JVal)) = [] := rfl
  rw [hnil, List.nil_append, readJSON, readVal_obrace_comma]

theorem deepMerge_empty_source (ts : List (String × JVal)) (hts : ts ≠ []) :
    deepMerge (.obj ts) (.obj []) = .obj ts := by
  obtain ⟨p, t, rfl⟩ : ∃ p t, ts = p :: t := by
    cases ts with
    | nil => exact absurd rfl hts
    | cons p t => exact ⟨p, t, rfl⟩
  obtain ⟨k, v⟩ := p
  rw [deepMerge_eq_read, serChars_obj_strip, serChars_obj_strip]
  have hnil : serFields ([] : List (String × JVal)) = [] := rfl
  rw [hnil, List.nil_append]
  have hhead : ∃ u, serFields ((k, v) :: t) = '\"' :: u := by
    cases t with
    | nil => exact ⟨_, serFields_one k v⟩
    | cons q gs => exact ⟨_, serFields_two k v q gs⟩
  obtain ⟨u, hu⟩ := hhead
  have harg : obrace :: (serFields ((k, v) :: t) ++ ',' :: [cbrace])
      = obrace :: ('\"' :: (u ++ ',' :: cbrace :: [])) := by
    rw [hu]
    simp
  rw [harg, readJSON]
  have hlen2 : ('\"' :: (u ++ ',' :: cbrace :: [])).length = u.length + 3 := by simp
  have hfits : (obrace :: ('\"' :: (u ++ ',' :: cbrace :: []))).length + 2
      = (u.length + 5) + 1 := by simp
  rw [hfits, readVal_obj (u.length + 5) '\"' (u ++ ',' :: cbrace :: []) (by decide)]
  have hkey : '\"' :: (u ++ ',' :: cbrace :: ([] : List Char))
      = serFields ((k, v) :: t) ++ ',' :: cbrace :: [] := by
    rw [hu]
    simp
  rw [hkey, readFields_trailing_comma t k v (u.length + 5) []
      (by rw [hu]; simp)]

/-! ## Claim C1 -/

/-- Claim C1 is false on the code: with a target that serializes as the empty
mapping and a source carrying the key `a`, the spliced text does not parse,
the catch returns the original target, and the result lacks the source's key
`a` — yet the claim demands that every top-level key of `source` be present
in the result for every pair of mappings, the empty mapping included. -/
theorem c1_counterexample :
    deepMerge (.obj []) (.obj [("a", .num 1)]) = .obj []
      ∧ getProp (deepMerge (.obj []) (.obj [("a", .num 1)])) "a" = none
      ∧ deepMerge (.obj []) (.obj [("a", .num 1)]) ≠ .obj [("a", .num 1)] :=
  ⟨by decide, by decide, by decide⟩

/-- Claim C1 (amended): when both operands are mappings whose serializations
are nonempty, `deepMerge` returns the object built by assigning all of the
target's and then all of the source's top-level entries, so the result holds
every top-level key of either operand and the source's value wins as a whole
on collisions; when the target serializes as the empty mapping, the splice
fails to parse and the result is the target (every source key is lost); when
the source serializes as the empty mapping, the result is likewise the
target, which then equals the union. -/
theorem c1_amended :
    (∀ ts ss : List (String × JVal), ts ≠ [] → ss ≠ [] →
        wf (.obj ts) = true → wf (.obj ss) = true →
        deepMerge (.obj ts) (.obj ss) = .obj (buildObj (ts ++ ss))
          ∧ ∀ k, lookupStr (buildObj (ts ++ ss)) k = orO (lookupStr ss k) (lookupStr ts k))
    ∧ (∀ ss : List (String × JVal), deepMerge (.obj []) (.obj ss) = .obj [])
    ∧ (∀ ts : List (String × JVal), ts ≠ [] → deepMerge (.obj ts) (.obj []) = .obj ts) := by
  refine ⟨fun ts ss hts hss hwt hws => ⟨deepMerge_objs ts ss hts hss hwt hws, fun k => ?_⟩,
    deepMerge_empty_target, deepMerge_empty_source⟩
  have h1 : (nodupKeys ts && wfF ts) = true := hwt
  have h2 : (nodupKeys ss && wfF ss) = true := hws
  rw [Bool.and_eq_true] at h1 h2
  exact lookupStr_buildObj_append ts ss h1.1 h2.1 k

/-- Witness instantiating the amended claim C1 at concrete mappings with a
colliding key. -/
theorem c1_witness :
    deepMerge (.obj [("a", .num 1), ("c", .num 7)]) (.obj [("a", .num 2), ("b", .num 3)])
      = .obj (buildObj ([("a", .num 1), ("c", .num 7)] ++ [("a", .num 2), ("b", .num 3)]))
      ∧ lookupStr (buildObj ([("a", .num 1), ("c", .num 7)] ++ [("a", .num 2), ("b", .num 3)])) "a"
        = orO (lookupStr [("a", .num 2), ("b", .num 3)] "a")
            (lookupStr [("a", .num 1), ("c", .num 7)] "a") := by
  have h := c1_amended.1 [("a", .num 1), ("c", .num 7)] [("a", .num 2), ("b", .num 3)]
    (by decide) (by decide) (by decide) (by decide)
  exact ⟨h.1, h.2 "a"⟩

/-! ## Claim C6 -/

/-- Claim C6: for every representable JSON value — well-formed, carrying no
duplicate keys at any object level, as no materialized JS value can —
deserializing the serialization yields the value back for any fallback, and
consequently `deepCopy` returns it unchanged, so the clone is structurally
equal to the original. -/
theorem c6_roundtrip (v : JVal) (fb : JVal) (h : wf v = true) :
    parse (stringify v) fb = v ∧ deepCopy v = some v := by
  constructor
  · rw [parse, stringify]
    show (match readJSON (serChars v) with | some w => w | none => fb) = v
    rw [readJSON_serChars_wf v h]
  · rw [deepCopy, readJSON_serChars_wf v h]

/-- Witness for claim C6 at a concrete nested value with every scalar kind. -/
theorem c6_witness :
    wf (.obj [("k", .arr [.null, .bool true, .num (-12), .str "a b"])]) = true
      ∧ (parse (stringify (.obj [("k", .arr [.null, .bool true, .num (-12), .str "a b"])])) .null
          = .obj [("k", .arr [.null, .bool true, .num (-12), .str "a b"])]
        ∧ deepCopy (.obj [("k", .arr [.null, .bool true, .num (-12), .str "a b"])])
          = some (.obj [("k", .arr [.null, .bool true, .num (-12), .str "a b"])])) :=
  ⟨by decide, c6_roundtrip _ .null (by decide)⟩

/-! ## Claim C7 -/

/-- Claim C7: on the target mapping `x` to the mapping with `p` 1 and `q` 2,
and source mapping `x` to the mapping with `q` 3, the two combine operations
genuinely diverge: `deepMerge` replaces the nested mapping as a whole and the
nested `p` is lost, while `deepUpdate` recurses and keeps `p` while updating
`q`. -/
theorem c7_divergence :
    deepMerge (.obj [("x", .obj [("p", .num 1), ("q", .num 2)])])
        (.obj [("x", .obj [("q", .num 3)])])
      = .obj [("x", .obj [("q", .num 3)])]
      ∧ deepUpdate (.obj [("x", .obj [("p", .num 1), ("q", .num 2)])])
          (.obj [("x", .obj [("q", .num 3)])])
        = .obj [("x", .obj [("p", .num 1), ("q", .num 3)])] :=
  ⟨by decide, by decide⟩

/-! ## Claim C5 -/

theorem walkStep_none : ∀ (path : List String),
    path.foldl
      (fun acc key =>
        match acc with
        | some a => if truthy a then getProp a key else none
        | none => none) none = none := by
  intro path
  induction path with
  | nil => rfl
  | cons k rest ih => rw [List.foldl_cons]; exact ih

theorem walk_foldl : ∀ (path : List String) (v : JVal),
    path.foldl
      (fun acc key =>
        match acc with
        | some a => if truthy a then getProp a key else none
        | none => none) (some v) = specWalk v path := by
  intro path
  induction path with
  | nil => intro v; rfl
  | cons k rest ih =>
    intro v
    rw [List.foldl_cons, specWalk]
    show List.foldl _ (if truthy v then getProp v k else none) rest = _
    by_cases h : truthy v = true
    · rw [if_pos h, if_pos h]
      cases hg : getProp v k with
      | some w => exact ih w
      | none => exact walkStep_none rest
    · rw [if_neg h, if_neg h]
      exact walkStep_none rest

/-- Claim C5 is false on the code: stepping into an array with a canonical
index key succeeds (the claim demands Absent for any non-mapping step), and
the empty path on a non-object root yields Absent, not the root itself. -/
theorem c5_counterexample :
    getByPath (.obj [("a", .arr [.num 5, .num 6])]) ["a", "0"] = some (.num 5)
      ∧ getByPath (.num 5) [] = none :=
  ⟨by decide, by decide⟩

/-- Claim C5 (amended): on an object-like root (a mapping or an array) the
fold coincides with the step-by-step walk `specWalk`, where each step reads an
own property of a truthy current value — mapping keys, canonical array and
string indices, and `length` all succeed, and a missing property, a falsy
current value or a property-less primitive yields Absent, which then
propagates; the empty path returns the root itself.  A root that is not
object-like yields Absent outright.  The specification's two path examples
hold as stated. -/
theorem c5_amended :
    (∀ (v : JVal) (path : List String), isObjLike v = true →
        getByPath v path = specWalk v path)
    ∧ (∀ (v : JVal) (path : List String), isObjLike v = false →
        getByPath v path = none)
    ∧ getByPath (.obj [("a", .obj [("b", .obj [("c", .num 5)])])]) ["a", "b", "c"]
      = some (.num 5)
    ∧ getByPath (.obj [("a", .num 1)]) ["a", "z"] = none := by
  refine ⟨fun v path h => ?_, fun v path h => ?_, by decide, by decide⟩
  · rw [getByPath, if_pos h]
    exact walk_foldl path v
  · rw [getByPath, if_neg (by simp [h])]

/-- Witness instantiating the amended claim C5 at a concrete nested mapping
and at a non-object root. -/
theorem c5_witness :
    (isObjLike (.obj [("a", .obj [("b", .obj [("c", .num 5)])])]) = true
      ∧ getByPath (.obj [("a", .obj [("b", .obj [("c", .num 5)])])]) ["a", "b", "c"]
        = specWalk (.obj [("a", .obj [("b", .obj [("c", .num 5)])])]) ["a", "b", "c"])
    ∧ (isObjLike (.num 7) = false ∧ getByPath (.num 7) ["a"] = none) :=
  ⟨⟨by decide, c5_amended.1 _ _ (by decide)⟩,
   ⟨by decide, c5_amended.2.1 _ _ (by decide)⟩⟩

/-! ## Claim C4 -/

theorem headO_append (a b : List JVal) : (a ++ b).head? = orO a.head? b.head? := by
  cases a <;> rfl

mutual

theorem fvk_hits : ∀ (v : JVal) (key : String),
    findValueByKey v key = (specHits v key).head?
  | .null, key => rfl
  | .bool b, key => rfl
  | .num n, key => rfl
  | .str s, key => rfl
  | .obj fs, key => by
    rw [findValueByKey, specHits, headO_append]
    cases h : lookupStr fs key with
    | some x => rfl
    | none =>
      show fvkFields fs key = orO none (specHitsF fs key).head?
      rw [fvkF_hits fs key]
      cases (specHitsF fs key).head? <;> rfl
  | .arr xs, key => by
    rw [findValueByKey, specHits, headO_append]
    cases h : getProp (.arr xs) key with
    | some x => rfl
    | none =>
      show fvkItems xs key = orO none (specHitsI xs key).head?
      rw [fvkI_hits xs key]
      cases (specHitsI xs key).head? <;> rfl
termination_by v _ => sizeOf v

theorem fvkF_hits : ∀ (fs : List (String × JVal)) (key : String),
    fvkFields fs key = (specHitsF fs key).head?
  | [], key => rfl
  | (k0, x) :: rest, key => by
    rw [fvkFields, specHitsF, headO_append]
    by_cases h : isObjLike x = true
    · rw [if_pos h, if_pos h, fvk_hits x key]
      cases (specHits x key).head? with
      | some r => rfl
      | none =>
        show fvkFields rest key = orO none (specHitsF rest key).head?
        rw [fvkF_hits rest key]
        cases (specHitsF rest key).head? <;> rfl
    · rw [if_neg h, if_neg h]
      show fvkFields rest key = orO none (specHitsF rest key).head?
      rw [fvkF_hits rest key]
      cases (specHitsF rest key).head? <;> rfl
termination_by fs _ => sizeOf fs

theorem fvkI_hits : ∀ (xs : List JVal) (key : String),
    fvkItems xs key = (specHitsI xs key).head?
  | [], key => rfl
  | x :: rest, key => by
    rw [fvkItems, specHitsI, headO_append]
    by_cases h : isObjLike x = true
    · rw [if_pos h, if_pos h, fvk_hits x key]
      cases (specHits x key).head? with
      | some r => rfl
      | none =>
        show fvkItems rest key = orO none (specHitsI rest key).head?
        rw [fvkI_hits rest key]
        cases (specHitsI rest key).head? <;> rfl
    · rw [if_neg h, if_neg h]
      show fvkItems rest key = orO none (specHitsI rest key).head?
      rw [fvkI_hits rest key]
      cases (specHitsI rest key).head? <;> rfl
termination_by xs _ => sizeOf xs

end

/-- Claim C4 is false on the code: the search descends into arrays (their
`typeof` is `object`), so a key buried below an array member is found, where
the claim demands Absent. -/
theorem c4_counterexample :
    findValueByKey (.obj [("a", .arr [.obj [("b", .num 5)]])]) "b" = some (.num 5)
      ∧ findValueByKey (.obj [("a", .arr [.obj [("b", .num 5)]])]) "b" ≠ none :=
  ⟨by decide, by decide⟩

/-- Claim C4 (amended): the search is depth-first and pre-order — the own
property for the key wins, otherwise the first hit found while descending, in
iteration order, into every member that is object-like, arrays included; the
result is exactly the head of the pre-order hit list, and Absent when that
list is empty.  The safe variant behaves identically (no step of the
traversal can throw on the JSON domain). -/
theorem c4_amended :
    ∀ (v : JVal) (key : String),
      findValueByKey v key = (specHits v key).head?
        ∧ safeFindValueByKey v key = findValueByKey v key :=
  fun v key => ⟨fvk_hits v key, rfl⟩

/-! ## Claim C9 -/

theorem natStr_inj (a b : Nat) (h : natStr a = natStr b) : a = b := by
  have h2 : natChars a = natChars b := congrArg String.data h
  have h3 := congrArg digitsNat h2
  rwa [digitsNat_natChars, digitsNat_natChars] at h3

theorem enumIdx_key_ge : ∀ (xs : List JVal) (i : Nat) (k : String),
    k ∈ keyList (enumIdx i xs) → ∃ j, i ≤ j ∧ k = natStr j := by
  intro xs
  induction xs with
  | nil => intro i k h; simp [keyList, enumIdx] at h
  | cons x t ih =>
    intro i k h
    rw [enumIdx, keyList_cons] at h
    rcases List.mem_cons.mp h with h1 | h2
    · exact ⟨i, Nat.le_refl i, h1⟩
    · obtain ⟨j, hij, hk⟩ := ih (i + 1) k h2
      exact ⟨j, by omega, hk⟩

theorem nodupKeys_enumIdx : ∀ (xs : List JVal) (i : Nat),
    nodupKeys (enumIdx i xs) = true := by
  intro xs
  induction xs with
  | nil => intro i; rfl
  | cons x t ih =>
    intro i
    rw [enumIdx, nodupKeys_cons_iff]
    refine ⟨?_, ih (i + 1)⟩
    intro hmem
    obtain ⟨j, hij, hk⟩ := enumIdx_key_ge t (i + 1) (natStr i) hmem
    have := natStr_inj i j hk
    omega

theorem keyList_filter_sub : ∀ (fs : List (String × JVal)) (pred : String × JVal → Bool)
    (k : String), k ∈ keyList (fs.filter pred) → k ∈ keyList fs := by
  intro fs pred
  induction fs with
  | nil => intro k h; simpa [keyList] using h
  | cons p t ih =>
    obtain ⟨k0, v0⟩ := p
    intro k h
    rw [List.filter_cons] at h
    by_cases hp : pred (k0, v0) = true
    · rw [if_pos hp, keyList_cons] at h
      rcases List.mem_cons.mp h with h1 | h2
      · subst h1; rw [keyList_cons]; exact List.mem_cons_self ..
      · rw [keyList_cons]; exact List.mem_cons_of_mem _ (ih k h2)
    · rw [if_neg hp] at h
      rw [keyList_cons]
      exact List.mem_cons_of_mem _ (ih k h)

theorem nodupKeys_filter : ∀ (fs : List (String × JVal)) (pred : String × JVal → Bool),
    nodupKeys fs = true → nodupKeys (fs.filter pred) = true := by
  intro fs pred
  induction fs with
  | nil => intro _; rfl
  | cons p t ih =>
    obtain ⟨k0, v0⟩ := p
    intro h
    rw [nodupKeys_cons_iff] at h
    rw [List.filter_cons]
    by_cases hp : pred (k0, v0) = true
    · rw [if_pos hp, nodupKeys_cons_iff]
      exact ⟨fun hm => h.1 (keyList_filter_sub t pred k0 hm), ih h.2⟩
    · rw [if_neg hp]
      exact ih h.2

/-- Claim C9 is false on the code: an array passes the `typeof` guard, so the
filter runs over its index entries and the result is a non-empty mapping,
while the claim demands the empty mapping for every non-mapping input. -/
theorem c9_counterexample :
    removeEmptyValues (.arr [.num 5]) = .obj [("0", .num 5)]
      ∧ removeEmptyValues (.arr [.num 5]) ≠ .obj [] :=
  ⟨by decide, by decide⟩

/-- Claim C9 (amended): on a mapping the top-level members whose value is
null or the empty string are dropped and all others (0 and false included)
are kept; on an array the same filter runs over the index-keyed entries; any
other input yields the empty mapping. -/
theorem c9_amended :
    (∀ fs : List (String × JVal), nodupKeys fs = true →
        removeEmptyValues (.obj fs) = .obj (fs.filter (fun p => keepEntry p.2)))
    ∧ (∀ xs : List JVal,
        removeEmptyValues (.arr xs)
          = .obj ((enumIdx 0 xs).filter (fun p => keepEntry p.2)))
    ∧ (∀ v : JVal, isObjLike v = false → removeEmptyValues v = .obj []) := by
  refine ⟨fun fs h => ?_, fun xs => ?_, fun v h => ?_⟩
  · rw [removeEmptyValues, if_pos (show isObjLike (JVal.obj fs) = true from rfl)]
    show JVal.obj (buildObj (fs.filter _)) = _
    rw [buildObj_nodup _ (nodupKeys_filter fs _ h)]
  · rw [removeEmptyValues, if_pos (show isObjLike (JVal.arr xs) = true from rfl)]
    show JVal.obj (buildObj ((enumIdx 0 xs).filter _)) = _
    rw [buildObj_nodup _ (nodupKeys_filter _ _ (nodupKeys_enumIdx xs 0))]
  · rw [removeEmptyValues, if_neg (by simp [h])]

/-- Witness instantiating the amended claim C9 at a mapping holding null, an
empty string, zero and false. -/
theorem c9_witness :
    nodupKeys [("a", JVal.null), ("b", .str ""), ("c", .num 0), ("d", .bool false)] = true
      ∧ removeEmptyValues (.obj [("a", JVal.null), ("b", .str ""), ("c", .num 0), ("d", .bool false)])
        = .obj ([("a", JVal.null), ("b", .str ""), ("c", .num 0), ("d", .bool false)].filter
            (fun p => keepEntry p.2)) :=
  ⟨by decide, c9_amended.1 _ (by decide)⟩

/-! ## Claim C2 -/

theorem lookupStr_duGo : ∀ (us acc : List (String × JVal)) (k : String),
    nodupKeys us = true →
    lookupStr (duGo acc us) k
      = (match lookupStr us k with
         | none => lookupStr acc k
         | some v => some (duApply (lookupStr acc k) v)) := by
  intro us
  induction us with
  | nil => intro acc k _; rfl
  | cons p t ih =>
    obtain ⟨k0, v0⟩ := p
    intro acc k hnd
    rw [nodupKeys_cons_iff] at hnd
    have step : duGo acc ((k0, v0) :: t)
        = duGo (setField acc k0 (duApply (lookupStr acc k0) v0)) t := rfl
    rw [step, ih _ k hnd.2]
    by_cases h : k0 = k
    · subst h
      have hL : lookupStr (setField acc k0 (duApply (lookupStr acc k0) v0)) k0
          = some (duApply (lookupStr acc k0) v0) := by
        rw [lookupStr_setField, if_pos rfl]
      have hR : lookupStr ((k0, v0) :: t) k0 = some v0 := by
        rw [lookupStr, if_pos rfl]
      rw [lookupStr_not_mem t k0 hnd.1, hL, hR]
    · have hL : lookupStr (setField acc k0 (duApply (lookupStr acc k0) v0)) k
          = lookupStr acc k := by
        rw [lookupStr_setField, if_neg h]
      have hR : lookupStr ((k0, v0) :: t) k = lookupStr t k := by
        rw [lookupStr, if_neg h]
      rw [hL, hR]

/-- Claim C2 is false on the code: when the incoming value is a mapping and
the existing value is an array, the array is kept by the `acc[key] || ...`
fallback (it is truthy), the recursive call spreads it into an index-keyed
object, and the incoming entries are merged into that — the array is not
replaced as a whole. -/
theorem c2_counterexample :
    deepUpdate (.obj [("a", .arr [.num 1, .num 2])]) (.obj [("a", .obj [("b", .num 3)])])
      = .obj [("a", .obj [("0", .num 1), ("1", .num 2), ("b", .num 3)])]
      ∧ deepUpdate (.obj [("a", .arr [.num 1, .num 2])]) (.obj [("a", .obj [("b", .num 3)])])
        ≠ .obj [("a", .obj [("b", .num 3)])] :=
  ⟨by decide, by decide⟩

/-- Claim C2 (amended): for a mapping target and representable mapping
updates, `deepUpdate` returns the fold `duGo` of the updates' entries over
the target's entries, and pointwise: a key absent from the updates keeps the
target's value unchanged; a key present in the updates gets `duApply` of the
incoming value — a non-mapping incoming value (arrays and scalars included)
replaces as a whole, while a mapping incoming value recurses into the spread
entries of the existing value after the falsy-to-empty fallback, so an
existing mapping is merged, an existing array or string is spread into an
index-keyed mapping and merged, and an existing falsy or property-less value
is treated as empty.  A new mapping is returned and the target itself is
never modified (the embedding is pure, so non-mutation is immediate). -/
theorem c2_amended :
    ∀ (ts us : List (String × JVal)) (k : String), wf (.obj us) = true →
      (deepUpdate (.obj ts) (.obj us) = .obj (duGo ts us)
        ∧ lookupStr (duGo ts us) k
          = (match lookupStr us k with
             | none => lookupStr ts k
             | some v => some (duApply (lookupStr ts k) v)))
        ∧ (∀ (old : Option JVal) (v : JVal), (∀ gs, v ≠ .obj gs) → duApply old v = v)
        ∧ (∀ (old : Option JVal) (gs : List (String × JVal)),
            duApply old (.obj gs) = .obj (duGo (ownEntries (orEmptyObj old)) gs)) := by
  intro ts us k hwu
  have h2 : (nodupKeys us && wfF us) = true := hwu
  rw [Bool.and_eq_true] at h2
  refine ⟨⟨?_, lookupStr_duGo us ts k h2.1⟩, ?_, fun old gs => rfl⟩
  · rw [deepUpdate, readJSON_serChars_wf _ hwu]
    rfl
  · intro old v hv
    cases v with
    | obj gs => exact absurd rfl (hv gs)
    | null => rfl
    | bool b => rfl
    | num n => rfl
    | str s => rfl
    | arr xs => rfl

/-! ## Claim C3 -/

theorem nodupKeys_append_iff : ∀ (a b : List (String × JVal)),
    nodupKeys (a ++ b) = true
      ↔ nodupKeys a = true ∧ nodupKeys b = true
        ∧ ∀ k ∈ keyList a, ¬ k ∈ keyList b := by
  intro a b
  induction a with
  | nil => simp [nodupKeys, keyList]
  | cons p t ih =>
    obtain ⟨k0, v0⟩ := p
    rw [List.cons_append, nodupKeys_cons_iff, ih, nodupKeys_cons_iff, keyList_cons,
        keyList_append]
    simp only [List.mem_append, List.mem_cons]
    constructor
    · rintro ⟨h1, h2, h3, h4⟩
      push_neg at h1
      refine ⟨⟨h1.1, h2⟩, h3, ?_⟩
      rintro k (rfl | hk)
      · exact h1.2
      · exact h4 k hk
    · rintro ⟨⟨h1, h2⟩, h3, h4⟩
      refine ⟨?_, h2, h3, fun k hk => h4 k (Or.inr hk)⟩
      push_neg
      exact ⟨h1, h4 k0 (Or.inl rfl)⟩

theorem specLeaves_prim (v : JVal) (pre : String) (h : isObjLike v = false) :
    specLeaves v pre = [(pre, v)] := by
  cases v with
  | null => rfl
  | bool b => rfl
  | num n => rfl
  | str s => rfl
  | arr xs => exact Bool.noConfusion h
  | obj fs => exact Bool.noConfusion h

mutual

theorem flo_val : ∀ (v : JVal) (pre : String), isObjLike v = true →
    nodupKeys (specLeaves v pre) = true →
    flattenVal v pre = specLeaves v pre
  | .obj fs, pre, _, h => by
    show floFields pre [] fs = specLeavesF pre fs
    have key := flo_fields fs pre []
      (by rw [List.nil_append]; exact h)
    rw [key, List.nil_append]
  | .arr xs, pre, _, h => by
    show floItems pre [] 0 xs = specLeavesI pre 0 xs
    have key := flo_items xs pre 0 []
      (by rw [List.nil_append]; exact h)
    rw [key, List.nil_append]
  | .null, _, hobj, _ => Bool.noConfusion hobj
  | .bool b, _, hobj, _ => Bool.noConfusion hobj
  | .num n, _, hobj, _ => Bool.noConfusion hobj
  | .str s, _, hobj, _ => Bool.noConfusion hobj
termination_by v _ => sizeOf v

theorem flo_fields : ∀ (fs : List (String × JVal)) (pre : String)
    (acc : List (String × JVal)),
    nodupKeys (acc ++ specLeavesF pre fs) = true →
    floFields pre acc fs = acc ++ specLeavesF pre fs
  | [], pre, acc, _ => by
    show acc = acc ++ specLeavesF pre []
    rw [show specLeavesF pre [] = [] from rfl, List.append_nil]
  | (k, v) :: rest, pre, acc, h => by
    have hsplit : specLeavesF pre ((k, v) :: rest)
        = specLeaves v (joinKey pre k) ++ specLeavesF pre rest := rfl
    rw [hsplit] at h ⊢
    rw [← List.append_assoc] at h
    have hA := (nodupKeys_append_iff _ _).mp h
    have hB := (nodupKeys_append_iff _ _).mp hA.1
    rw [floFields]
    by_cases ho : isObjLike v = true
    · have hval := flo_val v (joinKey pre k) ho hB.2.1
      have hassign : assignAll acc (flattenVal v (joinKey pre k))
          = acc ++ specLeaves v (joinKey pre k) := by
        rw [hval]
        exact assignAll_disjoint _ acc hB.2.1
          (fun k2 hk2 hin => hB.2.2 k2 hin hk2)
      rw [if_pos ho, hassign,
          flo_fields rest pre (acc ++ specLeaves v (joinKey pre k))
            (by rw [List.append_assoc] at h ⊢; exact h),
          List.append_assoc]
    · have hv : isObjLike v = false := by
        cases hx : isObjLike v
        · rfl
        · exact absurd hx ho
      have hleaf := specLeaves_prim v (joinKey pre k) hv
      rw [hleaf] at h hB ⊢
      have hnk : ¬ (joinKey pre k) ∈ keyList acc := by
        intro hin
        exact hB.2.2 (joinKey pre k) hin (by rw [keyList_cons]; exact List.mem_cons_self ..)
      rw [if_neg ho, setField_not_mem acc (joinKey pre k) v hnk,
          flo_fields rest pre (acc ++ [(joinKey pre k, v)])
            (by rw [List.append_assoc] at h ⊢; exact h),
          List.append_assoc]
termination_by fs _ _ => sizeOf fs

theorem flo_items : ∀ (xs : List JVal) (pre : String) (i : Nat)
    (acc : List (String × JVal)),
    nodupKeys (acc ++ specLeavesI pre i xs) = true →
    floItems pre acc i xs = acc ++ specLeavesI pre i xs
  | [], pre, i, acc, _ => by
    show acc = acc ++ specLeavesI pre i []
    rw [show specLeavesI pre i [] = [] from rfl, List.append_nil]
  | v :: rest, pre, i, acc, h => by
    have hsplit : specLeavesI pre i (v :: rest)
        = specLeaves v (joinKey pre (natStr i)) ++ specLeavesI pre (i + 1) rest := rfl
    rw [hsplit] at h ⊢
    rw [← List.append_assoc] at h
    have hA := (nodupKeys_append_iff _ _).mp h
    have hB := (nodupKeys_append_iff _ _).mp hA.1
    rw [floItems]
    by_cases ho : isObjLike v = true
    · have hval := flo_val v (joinKey pre (natStr i)) ho hB.2.1
      have hassign : assignAll acc (flattenVal v (joinKey pre (natStr i)))
          = acc ++ specLeaves v (joinKey pre (natStr i)) := by
        rw [hval]
        exact assignAll_disjoint _ acc hB.2.1
          (fun k2 hk2 hin => hB.2.2 k2 hin hk2)
      rw [if_pos ho, hassign,
          flo_items rest pre (i + 1) (acc ++ specLeaves v (joinKey pre (natStr i)))
            (by rw [List.append_assoc] at h ⊢; exact h),
          List.append_assoc]
    · have hv : isObjLike v = false := by
        cases hx : isObjLike v
        · rfl
        · exact absurd hx ho
      have hleaf := specLeaves_prim v (joinKey pre (natStr i)) hv
      rw [hleaf] at h hB ⊢
      have hnk : ¬ (joinKey pre (natStr i)) ∈ keyList acc := by
        intro hin
        exact hB.2.2 (joinKey pre (natStr i)) hin
          (by rw [keyList_cons]; exact List.mem_cons_self ..)
      rw [if_neg ho, setField_not_mem acc (joinKey pre (natStr i)) v hnk,
          flo_items rest pre (i + 1) (acc ++ [(joinKey pre (natStr i), v)])
            (by rw [List.append_assoc] at h ⊢; exact h),
          List.append_assoc]
termination_by xs _ _ _ => sizeOf xs

end

/-- Claim C3 is false on the code: an array value has `typeof` `object`, so
flatten descends into it with index keys instead of keeping it intact as a
leaf, and an array passed as the input is itself flattened rather than
yielding an empty result. -/
theorem c3_counterexample :
    flattenObject (.obj [("a", .arr [.num 1, .num 2])]) ""
      = .obj [("a.0", .num 1), ("a.1", .num 2)]
      ∧ flattenObject (.obj [("a", .arr [.num 1, .num 2])]) ""
        ≠ .obj [("a", .arr [.num 1, .num 2])]
      ∧ flattenObject (.arr [.num 1]) "" = .obj [("0", .num 1)] :=
  ⟨by decide, by decide, by decide⟩

/-- Claim C3 (amended): on an object-like input whose dotted leaf keys are
pairwise distinct, flatten produces exactly the mapping of the non-object-like
leaves keyed by the dot-joined ancestor key sequence, where both mappings and
arrays are descended into — an array contributes its elements under their
canonical decimal indices rather than being kept as a leaf; any input that is
neither a mapping nor an array yields an empty result.  The specification's
flatten example holds as stated. -/
theorem c3_amended :
    (∀ (v : JVal) (pre : String), isObjLike v = true →
        nodupKeys (specLeaves v pre) = true →
        flattenObject v pre = .obj (specLeaves v pre))
    ∧ (∀ (v : JVal) (pre : String), isObjLike v = false → flattenObject v pre = .obj [])
    ∧ flattenObject (.obj [("a", .obj [("b", .num 1), ("c", .obj [("d", .num 2)])])]) ""
      = .obj [("a.b", .num 1), ("a.c.d", .num 2)] := by
  refine ⟨fun v pre h1 h2 => ?_, fun v pre h => ?_, by decide⟩
  · rw [flattenObject, flo_val v pre h1 h2]
  · rw [flattenObject]
    cases v with
    | null => rfl
    | bool b => rfl
    | num n => rfl
    | str s => rfl
    | arr xs => exact Bool.noConfusion h
    | obj fs => exact Bool.noConfusion h

/-- Witness instantiating the amended claim C3 at a nested mapping holding an
array, and at a primitive input. -/
theorem c3_witness :
    (isObjLike (.obj [("a", .obj [("b", .num 1)]), ("c", .arr [.num 2])]) = true
      ∧ nodupKeys (specLeaves (.obj [("a", .obj [("b", .num 1)]), ("c", .arr [.num 2])]) "") = true
      ∧ flattenObject (.obj [("a", .obj [("b", .num 1)]), ("c", .arr [.num 2])]) ""
        = .obj (specLeaves (.obj [("a", .obj [("b", .num 1)]), ("c", .arr [.num 2])]) ""))
    ∧ (isObjLike (.str "x") = false ∧ flattenObject (.str "x") "" = .obj []) :=
  ⟨⟨by decide, by decide, c3_amended.1 _ "" (by decide) (by decide)⟩,
   ⟨by decide, c3_amended.2.1 _ "" (by decide)⟩⟩

/-! ## Claim C10 -/

theorem primEq_eq {a b : JVal} (h : primEq a b = true) : a = b := by
  cases a <;> cases b <;> simp_all [primEq]

theorem primEqO_eq {a b : Option JVal} (h : primEqO a b = true) : a = b := by
  cases a with
  | none => cases b with
    | none => rfl
    | some y => exact Bool.noConfusion h
  | some x => cases b with
    | none => exact Bool.noConfusion h
    | some y => rw [primEq_eq (show primEq x y = true from h)]

theorem mu_foldl_extend : ∀ (l : List JVal) (key : String) (acc : List JVal),
    ∃ tail, l.foldl (fun acc o => if muKeep key acc o then acc ++ [o] else acc) acc = acc ++ tail := by
  intro l
  induction l with
  | nil => intro key acc; exact ⟨[], by simp⟩
  | cons o rest ih =>
    intro key acc
    rw [List.foldl_cons]
    by_cases h : muKeep key acc o = true
    · rw [if_pos h]
      obtain ⟨tail, ht⟩ := ih key (acc ++ [o])
      exact ⟨[o] ++ tail, by rw [ht, List.append_assoc]⟩
    · rw [if_neg h]
      exact ih key acc

theorem mu_foldl_mem : ∀ (l : List JVal) (key : String) (acc : List JVal) (item : JVal),
    item ∈ acc → item ∈ l.foldl (fun acc o => if muKeep key acc o then acc ++ [o] else acc) acc := by
  intro l key acc item hmem
  obtain ⟨tail, ht⟩ := mu_foldl_extend l key acc
  rw [ht]
  exact List.mem_append_left _ hmem

theorem mu_skip (key : String) (mid post C : List JVal) (e2 : JVal)
    (hex : ∃ item ∈ C, primEqO (getProp item key) (getProp e2 key) = true) :
    (mid ++ e2 :: post).foldl (fun acc o => if muKeep key acc o then acc ++ [o] else acc) C
      = (mid ++ post).foldl (fun acc o => if muKeep key acc o then acc ++ [o] else acc) C := by
  rw [List.foldl_append, List.foldl_append, List.foldl_cons]
  obtain ⟨item, hmem, heq⟩ := hex
  have hmemD := mu_foldl_mem mid key C item hmem
  have hany : (mid.foldl (fun acc o => if muKeep key acc o then acc ++ [o] else acc) C).any
      (fun it => primEqO (getProp it key) (getProp e2 key)) = true :=
    List.any_eq_true.mpr ⟨item, hmemD, heq⟩
  have hkeep : muKeep key (mid.foldl (fun acc o => if muKeep key acc o then acc ++ [o] else acc) C) e2
      = false := by
    rw [muKeep, hany]
    simp
  rw [if_neg (by rw [hkeep]; exact Bool.noConfusion)]

theorem mu_after_e1 (pre : List JVal) (key : String) (e1 : JVal)
    (ht : truthy e1 = true) (hs : (getProp e1 key).isSome = true)
    (hself : primEqO (getProp e1 key) (getProp e1 key) = true) :
    ∃ item ∈ (pre ++ [e1]).foldl (fun acc o => if muKeep key acc o then acc ++ [o] else acc) [],
      primEqO (getProp item key) (getProp e1 key) = true := by
  rw [List.foldl_append, List.foldl_cons, List.foldl_nil]
  by_cases h : muKeep key (pre.foldl (fun acc o => if muKeep key acc o then acc ++ [o] else acc) []) e1
      = true
  · rw [if_pos h]
    exact ⟨e1, List.mem_append_right _ (List.mem_singleton.mpr rfl), hself⟩
  · rw [if_neg h]
    rw [muKeep, ht, hs] at h
    simp only [Bool.true_and, Bool.not_eq_true', Bool.not_eq_false] at h
    obtain ⟨item, hmem, heq⟩ := List.any_eq_true.mp (by simpa using h)
    exact ⟨item, hmem, heq⟩

/-- Claim C10: `mergeUniqueByKey` deduplicates by strict equality on the key
values.  (a) Generally: whenever a later element's key value is strictly
(`===`) equal to an earlier eligible element's — which forces both to be the
same primitive — the later element contributes nothing to the output, so the
first occurrence wins in encounter order.  (b) Two mappings carrying
structurally equal but referentially distinct compound values (equal arrays)
at the key are both retained.  (c) The specification's dedup example holds
with the first occurrence winning. -/
theorem c10_strict_dedup :
    (∀ (key : String) (pre mid post : List JVal) (e1 e2 : JVal),
        truthy e1 = true → (getProp e1 key).isSome = true →
        primEqO (getProp e2 key) (getProp e1 key) = true →
        mergeUniqueByKey (.arr [.arr (pre ++ e1 :: (mid ++ e2 :: post))]) key
          = mergeUniqueByKey (.arr [.arr (pre ++ e1 :: (mid ++ post))]) key)
    ∧ mergeUniqueByKey (.arr [.arr [.obj [("k", .arr [.num 1])], .obj [("k", .arr [.num 1])]]]) "k"
      = .arr [.obj [("k", .arr [.num 1])], .obj [("k", .arr [.num 1])]]
    ∧ mergeUniqueByKey
        (.arr [.arr [.obj [("id", .num 1), ("n", .str "A")], .obj [("id", .num 2), ("n", .str "B")]],
               .arr [.obj [("id", .num 2), ("n", .str "B2")], .obj [("id", .num 3), ("n", .str "C")]]])
        "id"
      = .arr [.obj [("id", .num 1), ("n", .str "A")], .obj [("id", .num 2), ("n", .str "B")],
              .obj [("id", .num 3), ("n", .str "C")]] := by
  refine ⟨fun key pre mid post e1 e2 ht hs heq => ?_, by decide, by decide⟩
  have hflat : ∀ l : List JVal, flatOnce [.arr l] = l := by
    intro l
    rw [flatOnce, flatOnce, List.append_nil]
  have hvals : getProp e2 key = getProp e1 key := primEqO_eq heq
  have hself : primEqO (getProp e1 key) (getProp e1 key) = true := by rwa [hvals] at heq
  have hex := mu_after_e1 pre key e1 ht hs hself
  rw [← hvals] at hex
  have hmain := mu_skip key mid post
    (List.foldl (fun acc o => if muKeep key acc o then acc ++ [o] else acc) [] (pre ++ [e1]))
    e2 hex
  show JVal.arr _ = JVal.arr _
  rw [hflat, hflat]
  have hsplit1 : pre ++ e1 :: (mid ++ e2 :: post) = (pre ++ [e1]) ++ (mid ++ e2 :: post) := by
    simp
  have hsplit2 : pre ++ e1 :: (mid ++ post) = (pre ++ [e1]) ++ (mid ++ post) := by
    simp
  have s1 : List.foldl (fun acc o => if muKeep key acc o then acc ++ [o] else acc) []
        ((pre ++ [e1]) ++ (mid ++ e2 :: post))
      = List.foldl (fun acc o => if muKeep key acc o then acc ++ [o] else acc)
          (List.foldl (fun acc o => if muKeep key acc o then acc ++ [o] else acc) []
            (pre ++ [e1]))
          (mid ++ e2 :: post) := by
    rw [List.foldl_append]
  have s2 : List.foldl (fun acc o => if muKeep key acc o then acc ++ [o] else acc) []
        ((pre ++ [e1]) ++ (mid ++ post))
      = List.foldl (fun acc o => if muKeep key acc o then acc ++ [o] else acc)
          (List.foldl (fun acc o => if muKeep key acc o then acc ++ [o] else acc) []
            (pre ++ [e1]))
          (mid ++ post) := by
    rw [List.foldl_append]
  rw [hsplit1, hsplit2, s1, s2, hmain]

/-- Witness instantiating the dedup half of claim C10: a later mapping whose
key value is the same primitive as an earlier one changes nothing. -/
theorem c10_witness :
    truthy (.obj [("id", .num 1), ("n", .str "A")]) = true
      ∧ (getProp (.obj [("id", .num 1), ("n", .str "A")]) "id").isSome = true
      ∧ primEqO (getProp (.obj [("id", .num 1), ("n", .str "B")]) "id")
          (getProp (.obj [("id", .num 1), ("n", .str "A")]) "id") = true
      ∧ mergeUniqueByKey
          (.arr [.arr ([] ++ .obj [("id", .num 1), ("n", .str "A")] ::
            ([] ++ .obj [("id", .num 1), ("n", .str "B")] :: []))]) "id"
        = mergeUniqueByKey
            (.arr [.arr ([] ++ .obj [("id", .num 1), ("n", .str "A")] :: ([] ++ []))]) "id" :=
  ⟨by decide, by decide, by decide,
   c10_strict_dedup.1 "id" [] [] [] _ _ (by decide) (by decide) (by decide)⟩

/-- Witness instantiating the amended claim C2 at concrete mappings with an
absent key, a replaced key and a recursively merged key. -/
theorem c2_witness :
    wf (.obj [("x", .obj [("q", .num 3)]), ("y", .num 9)]) = true
      ∧ deepUpdate (.obj [("x", .obj [("p", .num 1)]), ("z", .num 0)])
          (.obj [("x", .obj [("q", .num 3)]), ("y", .num 9)])
        = .obj (duGo [("x", .obj [("p", .num 1)]), ("z", .num 0)]
            [("x", .obj [("q", .num 3)]), ("y", .num 9)]) :=
  ⟨by decide,
   ((c2_amended [("x", .obj [("p", .num 1)]), ("z", .num 0)]
      [("x", .obj [("q", .num 3)]), ("y", .num 9)] "x" (by decide)).1).1⟩

/-! ### Claim C8: equality laws of `deepEqualJSON` against `equalJSON` -/

theorem keyList_mem_of_mem {k : String} {v : JVal} {fs : List (String × JVal)}
    (h : (k, v) ∈ fs) : k ∈ keyList fs := by
  simp only [keyList, List.mem_map]
  exact ⟨(k, v), h, rfl⟩

theorem lookupStr_isSome_iff : ∀ (fs : List (String × JVal)) (k : String),
    (∃ v, lookupStr fs k = some v) ↔ k ∈ keyList fs := by
  intro fs k
  induction fs with
  | nil => simp [lookupStr, keyList]
  | cons p t ih =>
    obtain ⟨k0, v0⟩ := p
    rw [lookupStr, keyList_cons]
    by_cases h : k0 = k
    · subst h
      simp
    · rw [if_neg h, ih, List.mem_cons]
      exact (or_iff_right (fun he => h he.symm)).symm

theorem lookupStr_mem : ∀ (fs : List (String × JVal)) (k : String) (v : JVal),
    lookupStr fs k = some v → (k, v) ∈ fs := by
  intro fs k
  induction fs with
  | nil => intro v h; exact Option.noConfusion h
  | cons p t ih =>
    obtain ⟨k0, v0⟩ := p
    intro v h
    rw [lookupStr] at h
    by_cases he : k0 = k
    · subst he
      rw [if_pos rfl] at h
      injection h with h2
      subst h2
      exact List.mem_cons_self _ _
    · rw [if_neg he] at h
      exact List.mem_cons_of_mem _ (ih v h)

theorem lookupStr_of_mem_nodup : ∀ (fs : List (String × JVal)), nodupKeys fs = true →
    ∀ (k : String) (v : JVal), (k, v) ∈ fs → lookupStr fs k = some v := by
  intro fs
  induction fs with
  | nil => intro _ k v h; cases h
  | cons p t ih =>
    obtain ⟨k0, v0⟩ := p
    intro hnd k v h
    rw [nodupKeys_cons_iff] at hnd
    rw [lookupStr]
    rcases List.mem_cons.mp h with he | ht
    · injection he with h1 h2
      subst h1
      subst h2
      rw [if_pos rfl]
    · have hk : ¬ k0 = k := by
        intro he2
        exact hnd.1 (he2 ▸ keyList_mem_of_mem ht)
      rw [if_neg hk]
      exact ih hnd.2 k v ht

theorem nodupKeys_iff_nodup : ∀ (fs : List (String × JVal)),
    nodupKeys fs = true ↔ (keyList fs).Nodup := by
  intro fs
  induction fs with
  | nil => simp [nodupKeys, keyList]
  | cons p t ih =>
    obtain ⟨k0, v0⟩ := p
    rw [nodupKeys_cons_iff, keyList_cons, List.nodup_cons, ih]

theorem enumIdx_length : ∀ (xs : List JVal) (i : Nat),
    (enumIdx i xs).length = xs.length := by
  intro xs
  induction xs with
  | nil => intro i; rfl
  | cons x t ih =>
    intro i
    rw [enumIdx]
    simp [ih]

theorem enumIdx_mem : ∀ (xs : List JVal) (i : Nat) (k : String) (v : JVal),
    (k, v) ∈ enumIdx i xs →
    ∃ j, ∃ h : j < xs.length, k = natStr (i + j) ∧ v = xs.get ⟨j, h⟩ := by
  intro xs
  induction xs with
  | nil => intro i k v h; cases h
  | cons x t ih =>
    intro i k v h
    rw [enumIdx] at h
    rcases List.mem_cons.mp h with he | ht
    · injection he with h1 h2
      exact ⟨0, Nat.succ_pos _, by simpa using h1, by simpa using h2⟩
    · obtain ⟨j, hj, hk, hv⟩ := ih (i + 1) k v ht
      refine ⟨j + 1, Nat.succ_lt_succ hj, ?_, hv⟩
      rw [hk]
      congr 1
      omega

theorem natStr_ne_length (j : Nat) : natStr j ≠ "length" := by
  intro h
  have h2 : natChars j = "length".data := congrArg String.data h
  have h3 := natChars_all_dig j
  rw [h2] at h3
  have h4 : isDig 'l' = true := h3 'l' (by decide)
  exact absurd h4 (by decide)

theorem decodeIndex_natStr (j : Nat) : decodeIndex (natStr j) = some j := by
  cases he : natChars j with
  | nil => exact absurd he (natChars_ne_nil j)
  | cons c cs =>
    have hdc : (natStr j).data = c :: cs := he
    simp only [decodeIndex, hdc]
    rw [← he, digitsNat_natChars, if_pos rfl]

theorem getProp_of_lookup (b : JVal) (hb : isObjLike b = true) (k : String) (w : JVal)
    (h : lookupStr (ownEntries b) k = some w) : getProp b k = some w := by
  cases b with
  | obj fs => exact h
  | arr xs =>
    obtain ⟨j, hj, hk, hw⟩ := enumIdx_mem xs 0 k w (lookupStr_mem _ _ _ h)
    subst hk
    have hz : (0 : Nat) + j = j := Nat.zero_add j
    rw [hz]
    show (if natStr j = "length" then some (.num xs.length)
      else match decodeIndex (natStr j) with
        | some i => xs.get? i
        | none => none) = some w
    rw [if_neg (natStr_ne_length j), decodeIndex_natStr]
    show xs.get? j = some w
    rw [List.get?_eq_get hj, hw]
  | null => exact Bool.noConfusion hb
  | bool x => exact Bool.noConfusion hb
  | num x => exact Bool.noConfusion hb
  | str s => exact Bool.noConfusion hb

theorem ownKeys_eq_keyList (b : JVal) (hb : isObjLike b = true) :
    ownKeys b = keyList (ownEntries b) := by
  cases b with
  | obj fs => rfl
  | arr xs => rfl
  | null => exact Bool.noConfusion hb
  | bool x => exact Bool.noConfusion hb
  | num x => exact Bool.noConfusion hb
  | str s => exact Bool.noConfusion hb

theorem ownEntries_length (b : JVal) (hb : isObjLike b = true) :
    (ownEntries b).length = ownLen b := by
  cases b with
  | obj fs => rfl
  | arr xs => exact enumIdx_length xs 0
  | null => exact Bool.noConfusion hb
  | bool x => exact Bool.noConfusion hb
  | num x => exact Bool.noConfusion hb
  | str s => exact Bool.noConfusion hb

theorem nodupKeys_ownEntries (b : JVal) (hb : isObjLike b = true) (hw : wf b = true) :
    nodupKeys (ownEntries b) = true := by
  cases b with
  | obj fs =>
    rw [wf, Bool.and_eq_true] at hw
    exact hw.1
  | arr xs => exact nodupKeys_enumIdx xs 0
  | null => exact Bool.noConfusion hb
  | bool x => exact Bool.noConfusion hb
  | num x => exact Bool.noConfusion hb
  | str s => exact Bool.noConfusion hb

theorem wf_ownEntries (b : JVal) (hb : isObjLike b = true) (hw : wf b = true) :
    ∀ p ∈ ownEntries b, wf p.2 = true := by
  cases b with
  | obj fs =>
    rw [wf, Bool.and_eq_true] at hw
    exact wfF_mem fs hw.2
  | arr xs =>
    intro p hp
    obtain ⟨j, hj, hk, hv⟩ := enumIdx_mem xs 0 p.1 p.2 (by simpa using hp)
    rw [hv]
    exact wfI_mem xs (by rwa [wf] at hw) _ (List.get_mem xs j hj)
  | null => exact Bool.noConfusion hb
  | bool x => exact Bool.noConfusion hb
  | num x => exact Bool.noConfusion hb
  | str s => exact Bool.noConfusion hb

theorem sizeOf_ownEntries (b : JVal) (hb : isObjLike b = true) :
    ∀ p ∈ ownEntries b, sizeOf p.2 < sizeOf b := by
  cases b with
  | obj fs =>
    intro p hp
    have h1 : sizeOf p < sizeOf fs := List.sizeOf_lt_of_mem hp
    obtain ⟨k, v⟩ := p
    have h2 : sizeOf ((k, v) : String × JVal) = 1 + sizeOf k + sizeOf v := by simp
    have h3 : sizeOf (JVal.obj fs) = 1 + sizeOf fs := by simp
    simp only [h3]
    simp only [h2] at h1
    omega
  | arr xs =>
    intro p hp
    obtain ⟨j, hj, hk, hv⟩ := enumIdx_mem xs 0 p.1 p.2 (by simpa using hp)
    have h1 : sizeOf (xs.get ⟨j, hj⟩) < sizeOf xs :=
      List.sizeOf_lt_of_mem (List.get_mem xs j hj)
    have h3 : sizeOf (JVal.arr xs) = 1 + sizeOf xs := by simp
    rw [hv, h3]
    omega
  | null => exact Bool.noConfusion hb
  | bool x => exact Bool.noConfusion hb
  | num x => exact Bool.noConfusion hb
  | str s => exact Bool.noConfusion hb

theorem decide_eq_beq {α : Type} [DecidableEq α] [BEq α] [LawfulBEq α] (x y : α) :
    (decide (x = y)) = (x == y) := by
  by_cases h : x = y
  · subst h
    simp
  · simp [h, beq_eq_false_iff_ne.mpr h]

theorem beq_symm_law {α : Type} [BEq α] [LawfulBEq α] (x y : α) : (x == y) = (y == x) := by
  by_cases h : x = y
  · subst h
    rfl
  · rw [beq_eq_false_iff_ne.mpr h, beq_eq_false_iff_ne.mpr (Ne.symm h)]

theorem primEq_symm (a b : JVal) : primEq a b = primEq b a := by
  cases a <;> cases b <;> simp only [primEq] <;> apply beq_symm_law

theorem deh_prim_left : ∀ (a b : JVal), isObjLike a = false →
    deepEqualHelper a b = primEq a b := by
  intro a b ha
  cases a <;> cases b <;> simp_all [deepEqualHelper, primEq, isObjLike] <;>
    exact decide_eq_beq _ _

theorem deh_prim_right : ∀ (a b : JVal), isObjLike b = false →
    deepEqualHelper a b = primEq a b := by
  intro a b hb
  cases a <;> cases b <;> simp_all [deepEqualHelper, primEq, isObjLike] <;>
    exact decide_eq_beq _ _

theorem deh_obj_left (fs : List (String × JVal)) (b : JVal) (hb : isObjLike b = true) :
    deepEqualHelper (.obj fs) b = ((fs.length == ownLen b) && dehFields fs b) := by
  cases b <;> simp_all [deepEqualHelper, primEq, isObjLike]

theorem deh_arr_obj (xs : List JVal) (gs : List (String × JVal)) :
    deepEqualHelper (.arr xs) (.obj gs)
      = ((xs.length == ownLen (.obj gs)) && dehIdx 0 xs (.obj gs)) := by
  simp [deepEqualHelper, primEq, isObjLike]

theorem deh_arr_arr (xs ys : List JVal) :
    deepEqualHelper (.arr xs) (.arr ys) = ((xs.length == ys.length) && dehItems xs ys) := by
  simp [deepEqualHelper, primEq]

theorem dehIdx_eq_dehFields (b : JVal) : ∀ (xs : List JVal) (i : Nat),
    dehIdx i xs b = dehFields (enumIdx i xs) b := by
  intro xs
  induction xs with
  | nil => intro i; rfl
  | cons x t ih =>
    intro i
    rw [dehIdx, enumIdx, dehFields, ih]

theorem dehFields_char : ∀ (fs : List (String × JVal)) (b : JVal), isObjLike b = true →
    (dehFields fs b = true ↔
      ∀ p ∈ fs, ∃ w, lookupStr (ownEntries b) p.1 = some w
        ∧ deepEqualHelper p.2 w = true) := by
  intro fs b hb
  induction fs with
  | nil => simp [dehFields]
  | cons p t ih =>
    obtain ⟨k, v⟩ := p
    rw [dehFields, Bool.and_eq_true, Bool.and_eq_true, ih]
    constructor
    · rintro ⟨⟨hc, hv⟩, ht⟩
      intro q hq
      rcases List.mem_cons.mp hq with he | hq2
      · subst he
        have hmem : k ∈ keyList (ownEntries b) := by
          rw [← ownKeys_eq_keyList b hb]
          simpa using hc
        obtain ⟨w, hw⟩ := (lookupStr_isSome_iff _ _).mpr hmem
        refine ⟨w, hw, ?_⟩
        have hg : getPropD b k = w := by
          rw [getPropD, getProp_of_lookup b hb k w hw]
          rfl
        rwa [hg] at hv
      · exact ht q hq2
    · intro hall
      obtain ⟨w, hw, hval⟩ := hall (k, v) (List.mem_cons_self _ _)
      refine ⟨⟨?_, ?_⟩, fun q hq => hall q (List.mem_cons_of_mem _ hq)⟩
      · have hmem : k ∈ keyList (ownEntries b) := (lookupStr_isSome_iff _ _).mp ⟨w, hw⟩
        rw [← ownKeys_eq_keyList b hb] at hmem
        simpa using hmem
      · have hg : getPropD b k = w := by
          rw [getPropD, getProp_of_lookup b hb k w hw]
          rfl
        rw [hg]
        exact hval

theorem dehItems_refl : ∀ (xs : List JVal),
    (∀ x ∈ xs, deepEqualHelper x x = true) → dehItems xs xs = true := by
  intro xs
  induction xs with
  | nil => intro _; rfl
  | cons x t ih =>
    intro h
    rw [dehItems, Bool.and_eq_true]
    exact ⟨h x (List.mem_cons_self _ _), ih fun y hy => h y (List.mem_cons_of_mem _ hy)⟩

theorem dehItems_symm : ∀ (xs ys : List JVal), xs.length = ys.length →
    (∀ x ∈ xs, ∀ y ∈ ys, deepEqualHelper x y = deepEqualHelper y x) →
    dehItems xs ys = dehItems ys xs := by
  intro xs
  induction xs with
  | nil =>
    intro ys h _
    cases ys with
    | nil => rfl
    | cons y u => simp at h
  | cons x t ih =>
    intro ys h hpt
    cases ys with
    | nil => simp at h
    | cons y u =>
      rw [dehItems, dehItems,
        hpt x (List.mem_cons_self _ _) y (List.mem_cons_self _ _),
        ih u (by simpa using h)
          (fun x2 hx y2 hy =>
            hpt x2 (List.mem_cons_of_mem _ hx) y2 (List.mem_cons_of_mem _ hy))]

theorem keyList_length (fs : List (String × JVal)) : (keyList fs).length = fs.length :=
  List.length_map fs Prod.fst

theorem dehFields_imp (a b : JVal) (ha : isObjLike a = true) (hb : isObjLike b = true)
    (hwa : wf a = true) (hwb : wf b = true) (hlen : ownLen a = ownLen b)
    (hpt : ∀ k v w, (k, v) ∈ ownEntries a → (k, w) ∈ ownEntries b →
      deepEqualHelper v w = true → deepEqualHelper w v = true)
    (h : dehFields (ownEntries a) b = true) : dehFields (ownEntries b) a = true := by
  rw [dehFields_char (ownEntries a) b hb] at h
  rw [dehFields_char (ownEntries b) a ha]
  have hsub : ∀ k ∈ keyList (ownEntries a), k ∈ keyList (ownEntries b) := by
    intro k hk
    obtain ⟨v, hv⟩ := (lookupStr_isSome_iff (ownEntries a) k).mpr hk
    obtain ⟨w, hw, _⟩ := h (k, v) (lookupStr_mem _ _ _ hv)
    exact (lookupStr_isSome_iff _ _).mp ⟨w, hw⟩
  have hndA : (keyList (ownEntries a)).Nodup :=
    (nodupKeys_iff_nodup _).mp (nodupKeys_ownEntries a ha hwa)
  have hndB : (keyList (ownEntries b)).Nodup :=
    (nodupKeys_iff_nodup _).mp (nodupKeys_ownEntries b hb hwb)
  have hlenk : (keyList (ownEntries b)).length = (keyList (ownEntries a)).length := by
    rw [keyList_length, keyList_length, ownEntries_length a ha, ownEntries_length b hb, hlen]
  have hsup : ∀ k ∈ keyList (ownEntries b), k ∈ keyList (ownEntries a) := by
    have hA := List.toFinset_card_of_nodup hndA
    have hB := List.toFinset_card_of_nodup hndB
    have hsubF : (keyList (ownEntries a)).toFinset ⊆ (keyList (ownEntries b)).toFinset := by
      intro k hk
      rw [List.mem_toFinset] at hk ⊢
      exact hsub k hk
    have hcard : (keyList (ownEntries b)).toFinset.card
        ≤ (keyList (ownEntries a)).toFinset.card := by
      rw [hA, hB]
      omega
    have heq := Finset.eq_of_subset_of_card_le hsubF hcard
    intro k hk
    have h1 : k ∈ (keyList (ownEntries b)).toFinset := List.mem_toFinset.mpr hk
    rw [← heq] at h1
    exact List.mem_toFinset.mp h1
  intro q hq
  have hq2 : (q.1, q.2) ∈ ownEntries b := by simpa using hq
  have hkA : q.1 ∈ keyList (ownEntries a) := hsup q.1 (keyList_mem_of_mem hq2)
  obtain ⟨v, hv⟩ := (lookupStr_isSome_iff _ _).mpr hkA
  have hvmem : (q.1, v) ∈ ownEntries a := lookupStr_mem _ _ _ hv
  obtain ⟨w2, hw2, hvw⟩ := h (q.1, v) hvmem
  have hwb2 : lookupStr (ownEntries b) q.1 = some q.2 :=
    lookupStr_of_mem_nodup _ (nodupKeys_ownEntries b hb hwb) q.1 q.2 (by simpa using hq)
  rw [hwb2] at hw2
  injection hw2 with hww
  refine ⟨v, hv, hpt q.1 v q.2 hvmem hq2 ?_⟩
  rw [hww]
  exact hvw

theorem deh_symm_aux : ∀ (n : Nat) (a b : JVal), sizeOf a + sizeOf b ≤ n →
    wf a = true → wf b = true → deepEqualHelper a b = deepEqualHelper b a := by
  intro n
  induction n with
  | zero =>
    intro a b hsz _ _
    exfalso
    have ha : 0 < sizeOf a := by cases a <;> simp
    omega
  | succ n ih =>
    intro a b hsz hwa hwb
    have core : ∀ a2 b2 : JVal, isObjLike a2 = true → isObjLike b2 = true →
        wf a2 = true → wf b2 = true → sizeOf a2 + sizeOf b2 ≤ n + 1 →
        ((ownLen a2 == ownLen b2) && dehFields (ownEntries a2) b2)
          = ((ownLen b2 == ownLen a2) && dehFields (ownEntries b2) a2) := by
      intro a2 b2 ha2 hb2 hwa2 hwb2 hsz2
      by_cases hl : ownLen a2 = ownLen b2
      · have e1 : (ownLen a2 == ownLen b2) = true := by simp [hl]
        have e2 : (ownLen b2 == ownLen a2) = true := by simp [hl]
        rw [e1, e2, Bool.true_and, Bool.true_and]
        have hpt : ∀ k v w, (k, v) ∈ ownEntries a2 → (k, w) ∈ ownEntries b2 →
            deepEqualHelper v w = deepEqualHelper w v := by
          intro k v w hv hw
          have d1 := sizeOf_ownEntries a2 ha2 (k, v) hv
          have d2 := sizeOf_ownEntries b2 hb2 (k, w) hw
          exact ih v w (by simp only at d1 d2; omega)
            (wf_ownEntries a2 ha2 hwa2 (k, v) hv) (wf_ownEntries b2 hb2 hwb2 (k, w) hw)
        cases hfw : dehFields (ownEntries a2) b2 with
        | true =>
          exact (dehFields_imp a2 b2 ha2 hb2 hwa2 hwb2 hl
            (fun k v w hv hw hvw => by rw [← hpt k v w hv hw]; exact hvw) hfw).symm
        | false =>
          cases hbw : dehFields (ownEntries b2) a2 with
          | false => rfl
          | true =>
            have hcontra := dehFields_imp b2 a2 hb2 ha2 hwb2 hwa2 hl.symm
              (fun k w v hw hv hwv => by rw [hpt k v w hv hw]; exact hwv) hbw
            rw [hfw] at hcontra
            exact Bool.noConfusion hcontra
      · have e1 : (ownLen a2 == ownLen b2) = false := beq_eq_false_iff_ne.mpr hl
        have e2 : (ownLen b2 == ownLen a2) = false := beq_eq_false_iff_ne.mpr (Ne.symm hl)
        rw [e1, e2, Bool.false_and, Bool.false_and]
    cases a with
    | arr xs =>
      cases b with
      | arr ys =>
        rw [deh_arr_arr, deh_arr_arr]
        by_cases hl : xs.length = ys.length
        · have e1 : (xs.length == ys.length) = true := by simp [hl]
          have e2 : (ys.length == xs.length) = true := by simp [hl]
          rw [e1, e2, Bool.true_and, Bool.true_and]
          apply dehItems_symm xs ys hl
          intro x hx y hy
          have d1 : sizeOf x < sizeOf (JVal.arr xs) := by
            have := List.sizeOf_lt_of_mem hx
            have h3 : sizeOf (JVal.arr xs) = 1 + sizeOf xs := by simp
            omega
          have d2 : sizeOf y < sizeOf (JVal.arr ys) := by
            have := List.sizeOf_lt_of_mem hy
            have h3 : sizeOf (JVal.arr ys) = 1 + sizeOf ys := by simp
            omega
          exact ih x y (by omega) (wfI_mem xs (by rwa [wf] at hwa) x hx)
            (wfI_mem ys (by rwa [wf] at hwb) y hy)
        · have e1 : (xs.length == ys.length) = false := beq_eq_false_iff_ne.mpr hl
          have e2 : (ys.length == xs.length) = false := beq_eq_false_iff_ne.mpr (Ne.symm hl)
          rw [e1, e2, Bool.false_and, Bool.false_and]
      | obj gs =>
        rw [deh_arr_obj, deh_obj_left gs (JVal.arr xs) rfl, dehIdx_eq_dehFields]
        exact core (JVal.arr xs) (JVal.obj gs) rfl rfl hwa hwb hsz
      | null =>
        rw [deh_prim_right (JVal.arr xs) JVal.null rfl,
          deh_prim_left JVal.null (JVal.arr xs) rfl, primEq_symm]
      | bool x =>
        rw [deh_prim_right (JVal.arr xs) (JVal.bool x) rfl,
          deh_prim_left (JVal.bool x) (JVal.arr xs) rfl, primEq_symm]
      | num x =>
        rw [deh_prim_right (JVal.arr xs) (JVal.num x) rfl,
          deh_prim_left (JVal.num x) (JVal.arr xs) rfl, primEq_symm]
      | str s =>
        rw [deh_prim_right (JVal.arr xs) (JVal.str s) rfl,
          deh_prim_left (JVal.str s) (JVal.arr xs) rfl, primEq_symm]
    | obj fs =>
      cases b with
      | arr ys =>
        rw [deh_obj_left fs (JVal.arr ys) rfl, deh_arr_obj, dehIdx_eq_dehFields]
        exact core (JVal.obj fs) (JVal.arr ys) rfl rfl hwa hwb hsz
      | obj gs =>
        rw [deh_obj_left fs (JVal.obj gs) rfl, deh_obj_left gs (JVal.obj fs) rfl]
        exact core (JVal.obj fs) (JVal.obj gs) rfl rfl hwa hwb hsz
      | null =>
        rw [deh_prim_right (JVal.obj fs) JVal.null rfl,
          deh_prim_left JVal.null (JVal.obj fs) rfl, primEq_symm]
      | bool x =>
        rw [deh_prim_right (JVal.obj fs) (JVal.bool x) rfl,
          deh_prim_left (JVal.bool x) (JVal.obj fs) rfl, primEq_symm]
      | num x =>
        rw [deh_prim_right (JVal.obj fs) (JVal.num x) rfl,
          deh_prim_left (JVal.num x) (JVal.obj fs) rfl, primEq_symm]
      | str s =>
        rw [deh_prim_right (JVal.obj fs) (JVal.str s) rfl,
          deh_prim_left (JVal.str s) (JVal.obj fs) rfl, primEq_symm]
    | null => rw [deh_prim_left JVal.null b rfl, deh_prim_right b JVal.null rfl, primEq_symm]
    | bool x =>
      rw [deh_prim_left (JVal.bool x) b rfl, deh_prim_right b (JVal.bool x) rfl, primEq_symm]
    | num x =>
      rw [deh_prim_left (JVal.num x) b rfl, deh_prim_right b (JVal.num x) rfl, primEq_symm]
    | str s =>
      rw [deh_prim_left (JVal.str s) b rfl, deh_prim_right b (JVal.str s) rfl, primEq_symm]

theorem deh_refl_aux : ∀ (n : Nat) (a : JVal), sizeOf a ≤ n → wf a = true →
    deepEqualHelper a a = true := by
  intro n
  induction n with
  | zero =>
    intro a hsz _
    exfalso
    have ha : 0 < sizeOf a := by cases a <;> simp
    omega
  | succ n ih =>
    intro a hsz hw
    cases a with
    | null => rfl
    | bool x =>
      rw [deh_prim_left (JVal.bool x) (JVal.bool x) rfl]
      simp [primEq]
    | num x =>
      rw [deh_prim_left (JVal.num x) (JVal.num x) rfl]
      simp [primEq]
    | str s =>
      rw [deh_prim_left (JVal.str s) (JVal.str s) rfl]
      simp [primEq]
    | arr xs =>
      rw [deh_arr_arr]
      have e1 : (xs.length == xs.length) = true := by simp
      rw [e1, Bool.true_and]
      apply dehItems_refl
      intro x hx
      have d1 : sizeOf x < sizeOf (JVal.arr xs) := by
        have := List.sizeOf_lt_of_mem hx
        have h3 : sizeOf (JVal.arr xs) = 1 + sizeOf xs := by simp
        omega
      exact ih x (by omega) (wfI_mem xs (by rwa [wf] at hw) x hx)
    | obj fs =>
      rw [deh_obj_left fs (JVal.obj fs) rfl]
      have e1 : (fs.length == ownLen (JVal.obj fs)) = true := by simp [ownLen]
      rw [e1, Bool.true_and]
      rw [dehFields_char fs (JVal.obj fs) rfl]
      intro p hp
      refine ⟨p.2, ?_, ?_⟩
      · have hnd : nodupKeys fs = true := by
          rw [wf, Bool.and_eq_true] at hw
          exact hw.1
        exact lookupStr_of_mem_nodup fs hnd p.1 p.2 (by simpa using hp)
      · have d1 := sizeOf_ownEntries (JVal.obj fs) rfl p hp
        apply ih p.2 (by omega)
        apply wfF_mem fs ?_ p hp
        rw [wf, Bool.and_eq_true] at hw
        exact hw.2

theorem deh_refl (a : JVal) (h : wf a = true) : deepEqualHelper a a = true :=
  deh_refl_aux (sizeOf a) a (Nat.le_refl _) h

theorem deh_symm (a b : JVal) (ha : wf a = true) (hb : wf b = true) :
    deepEqualHelper a b = deepEqualHelper b a :=
  deh_symm_aux (sizeOf a + sizeOf b) a b (Nat.le_refl _) ha hb

/-- C8: on materialized JSON values (well-formed: no duplicate keys at any
object level, as JavaScript objects cannot carry), `deepEqualJSON` is
reflexive and symmetric, and it is insensitive to mapping key order:
`deepEqualJSON {a:1,b:2} {b:2,a:1}` is true, while `equalJSON` on the same
pair is false because it compares the serialized texts, which list the keys
in insertion order. -/
theorem c8_equality_laws :
    (∀ a : JVal, wf a = true → deepEqualJSON a a = true)
      ∧ (∀ a b : JVal, wf a = true → wf b = true →
          deepEqualJSON a b = deepEqualJSON b a)
      ∧ deepEqualJSON (.obj [("a", .num 1), ("b", .num 2)])
          (.obj [("b", .num 2), ("a", .num 1)]) = true
      ∧ equalJSON (.obj [("a", .num 1), ("b", .num 2)])
          (.obj [("b", .num 2), ("a", .num 1)]) = false :=
  ⟨fun a ha => deh_refl a ha, fun a b ha hb => deh_symm a b ha hb, by decide, by decide⟩

/-- Witness instantiating claim C8's reflexivity and symmetry at concrete
well-formed values. -/
theorem c8_witness :
    deepEqualJSON (.obj [("k", .arr [.num 3, .str "x"])])
        (.obj [("k", .arr [.num 3, .str "x"])]) = true
      ∧ deepEqualJSON (.arr [.num 1]) (.obj [("0", .num 1)])
          = deepEqualJSON (.obj [("0", .num 1)]) (.arr [.num 1]) :=
  ⟨c8_equality_laws.1 _ (by decide), c8_equality_laws.2.1 _ _ (by decide) (by decide)⟩

end NgsJson
